import Mathlib

/- Verification of the Salus multi-level paging engine
   (src/riscv-page-tables/src/page_table.rs).

   The engine's PTE primitive (`crate::pte`), the `riscv_pages` address and
   page types, and the `page_tracking` tracker live in sibling crates whose
   sources are not part of the verified tree; they are modelled here from the
   specification (each such definition says so in its doc comment). Everything
   else is translated directly from `page_table.rs`.

   Machine integers are modelled as `Nat`; a PTE is a 64-bit word whose fields
   are accessed by bit position, physical memory is a total map from byte
   addresses of PTE slots to 64-bit words, and Rust panics (`unwrap`,
   `unreachable`) surface as `Option.none` or a dedicated `panic` result
   constructor. -/

namespace Salus

/-- Physical memory, restricted to the 64-bit words holding PTEs: a map from
byte address to word value. -/
abbrev Mem : Type := Nat → Nat

namespace Pte

/-- Modelled from the spec: `Pte::valid` of the missing `pte` module — bit 0
of the 64-bit entry. -/
def valid (p : Nat) : Bool := p.testBit 0

/-- Modelled from the spec: `Pte::leaf` of the missing `pte` module — the
R/W/X triple at bits 1..4 is nonzero. -/
def leaf (p : Nat) : Bool := p.testBit 1 || p.testBit 2 || p.testBit 3

/-- Modelled from the spec: `Pte::locked` of the missing `pte` module — the
software lock marker, bit 8 in the published layout. -/
def locked (p : Nat) : Bool := p.testBit 8

/-- Modelled from the spec: `Pte::pfn` of the missing `pte` module — the
44-bit page frame number held in bits 10..54. -/
def pfn (p : Nat) : Nat := (p >>> 10) % 2 ^ 44

/-- Modelled from the spec: `Pte::lock` of the missing `pte` module — sets
the software lock bit. -/
def lock (p : Nat) : Nat := p ||| 1 <<< 8

/-- Modelled from the spec: `Pte::unlock` of the missing `pte` module —
clears the software lock bit. -/
def unlock (p : Nat) : Nat := Nat.ldiff p (1 <<< 8)

/-- Modelled from the spec: `Pte::invalidate` of the missing `pte` module —
clears the valid bit and preserves the PFN. -/
def invalidate (p : Nat) : Nat := Nat.ldiff p 1

/-- Modelled from the spec: `Pte::set(pfn, bits)` of the missing `pte`
module — overwrites the word with the given PFN in bits 10..54 and the given
status bits. -/
def set (f : Nat) (bits : Nat) : Nat := (f % 2 ^ 44) <<< 10 ||| bits

end Pte

/-- Modelled from the spec: `PteFieldBits::non_leaf()` of the missing `pte`
module — just the valid bit. -/
def PteFieldBits.non_leaf : Nat := 1

/-- Modelled from the spec: the `PteLeafPerms` permission sets of the missing
`pte` module. -/
inductive PteLeafPerms where
  | R
  | RW
  | RX
  | RWX
deriving DecidableEq, Repr

/-- Modelled from the spec: the R/W/X bit pattern (bits 1..4) of a
permission set. -/
def PteLeafPerms.bits : PteLeafPerms → Nat
  | .R => 2
  | .RW => 6
  | .RX => 10
  | .RWX => 14

/-- Modelled from the spec: `PteFieldBits::leaf_with_perms(perms)` of the
missing `pte` module — the valid bit, the permission bits and the accessed
and dirty bits (bits 6 and 7). -/
def PteFieldBits.leaf_with_perms (perms : PteLeafPerms) : Nat :=
  1 ||| perms.bits ||| 1 <<< 6 ||| 1 <<< 7

/-- Modelled from the spec: the `PteFieldBit::User` bit position value
(bit 4) of the missing `pte` module. -/
def PteFieldBit.User : Nat := 1 <<< 4

/-- The five entry classifications of `TableEntryType` in `page_table.rs`
(the Lean embedding keeps the tag and tracks the underlying PTE slot
separately). -/
inductive TableEntryType where
  | Unused
  | Invalidated
  | Locked
  | Leaf
  | Table
deriving DecidableEq, Repr

/-- Translation of `TableEntryType::from_pte` in `page_table.rs`: classify a
raw PTE (the level argument is carried by the typed view but does not affect
the classification). -/
def TableEntryType.from_pte (p : Nat) (_lvl : Nat) : TableEntryType :=
  if Pte.valid p = false then
    if Pte.locked p then .Locked
    else if Pte.pfn p ≠ 0 then .Invalidated
    else .Unused
  else if Pte.leaf p = false then .Table
  else .Leaf

/-- Translation of `LockedPte::unlock` in `page_table.rs`: clear the lock bit
and reclassify as `Unused` when the PFN is zero, `Invalidated` otherwise. -/
def LockedPte.unlock (p : Nat) : Nat × TableEntryType :=
  let q := Pte.unlock p
  if Pte.pfn q = 0 then (q, .Unused) else (q, .Invalidated)

/-- Modelled from the spec: the page sizes of the `riscv_pages` crate. -/
inductive PageSize where
  | Size4k
  | Size2M
  | Size1G
  | Size512G
deriving DecidableEq, Repr

/-- Modelled from the spec: `PageSize::is_huge` — any size other than
4 KiB. -/
def PageSize.is_huge : PageSize → Bool
  | .Size4k => false
  | _ => true

/-- Modelled from the spec: the size in bytes of each page size. -/
def PageSize.bytes : PageSize → Nat
  | .Size4k => 2 ^ 12
  | .Size2M => 2 ^ 21
  | .Size1G => 2 ^ 30
  | .Size512G => 2 ^ 39

/-- Modelled from the spec: `SequentialPages<InternalClean>` of the
`riscv_pages` crate — a contiguous run of like-sized pages, described by its
base address, page size and length. -/
structure SequentialPages where
  base : Nat
  page_size : PageSize
  len : Nat
deriving DecidableEq, Repr

/-- Translation of the `Error` enum of `page_table.rs`, including which
variants carry the root pages back to the caller. -/
inductive Error where
  | InsufficientPages (root : SequentialPages)
  | InsufficientPtePages
  | LeafEntryNotTable
  | MisalignedPages (root : SequentialPages)
  | PageSizeNotSupported (size : PageSize)
  | MappingExists
  | PageNotMapped
  | PageNotUnmappable
  | PageNotConverted
  | PteLocked
  | PteNotLocked
  | OutOfMapRange
deriving DecidableEq, Repr

/-- Helper: the root pages recoverable from an `Error` payload, when the
variant carries them. -/
def Error.root_pages : Error → Option SequentialPages
  | .InsufficientPages r => some r
  | .MisalignedPages r => some r
  | _ => none

/-- Modelled from the spec: the memory types distinguished by the
`riscv_pages` crate. -/
inductive MemType where
  | Ram
  | Mmio
deriving DecidableEq, Repr

/-- Modelled from the spec: the narrow `PageTracker` surface used by the
engine — an ownership and conversion oracle over physical frames. The
conversion state records, per frame, owner and memory type, the TLB version
at which the frame was invalidated and converted (if any). -/
structure PageTracker where
  mapped : Nat → Nat → MemType → Bool
  convertedVersion : Nat → Nat → MemType → Option Nat

/-- Modelled from the spec: `PageTracker::is_mapped_page`. -/
def PageTracker.is_mapped_page (t : PageTracker) (paddr owner : Nat) (mt : MemType) : Bool :=
  t.mapped paddr owner mt

/-- Modelled from the spec: `PageTracker::is_converted_page` — true exactly
when the frame was converted at a TLB version strictly older than the
supplied version. -/
def PageTracker.is_converted_page (t : PageTracker) (paddr owner : Nat) (mt : MemType)
    (tlb_version : Nat) : Bool :=
  match t.convertedVersion paddr owner mt with
  | some w => decide (w < tlb_version)
  | none => false

/-- Modelled from the spec: the static shape of a `PagingMode` — levels are
numbered with 0 the leaf level and `numLevels - 1` the root, so that
`next()` is predecessor, matching the spec note that each level's `next()`
decreases. -/
structure PagingMode where
  numLevels : Nat
  addr_shift : Nat → Nat
  addr_width : Nat → Nat
  leaf_page_size : Nat → PageSize
  root_table_pages : Nat
  top_level_align : Nat

/-- The root level of a paging mode. -/
def PagingMode.rootLevel (M : PagingMode) : Nat := M.numLevels - 1

/-- Translation of `PageTableIndex::from_addr` in `page_table.rs`. -/
def PageTableIndex.from_addr (M : PagingMode) (addr : Nat) (lvl : Nat) : Nat :=
  let addr_bit_mask := (1 <<< M.addr_width lvl) - 1
  (addr >>> M.addr_shift lvl) &&& addr_bit_mask

/-- Translation of the entry-address computation of `PageTable::entry_mut`
in `page_table.rs`: the table base plus the index times the 8-byte size of a
PTE. -/
def PageTable.entry_addr (base idx : Nat) : Nat := base + idx * 8

/-- The slot address of the entry a table at `base`, `lvl` selects for
`addr` (composition of `index_from_addr` and `entry_mut`). -/
def slotOf (M : PagingMode) (base lvl addr : Nat) : Nat :=
  PageTable.entry_addr base (PageTableIndex.from_addr M addr lvl)

/-- Point update of physical memory at one PTE slot. -/
def writePte (mem : Mem) (a v : Nat) : Mem := fun s => if s = a then v else mem s

/-- Translation of the fields of `PageTableInner` in `page_table.rs` that
participate in the constructor (the `PhantomData` marker is dropped). -/
structure PageTableInner where
  root : SequentialPages
  owner : Nat
  page_tracker : PageTracker

/-- Translation of `PageTableInner::new` in `page_table.rs`: reject huge root
pages, a root base unaligned to `TOP_LEVEL_ALIGN`, or too few root pages, in
that order; the misalignment and length failures carry the root pages back
inside the error. -/
def PageTableInner.new (M : PagingMode) (root : SequentialPages) (owner : Nat)
    (page_tracker : PageTracker) : Except Error PageTableInner :=
  if root.page_size.is_huge then .error (.PageSizeNotSupported root.page_size)
  else if root.base &&& (M.top_level_align - 1) ≠ 0 then .error (.MisalignedPages root)
  else if root.len < M.root_table_pages then .error (.InsufficientPages root)
  else .ok ⟨root, owner, page_tracker⟩

namespace Pte

/-- Bit decomposition of `lock`. -/
theorem testBit_lock (p i : Nat) : (lock p).testBit i = (p.testBit i || decide (8 = i)) := by
  unfold lock
  rw [show (1 <<< 8 : Nat) = 2 ^ 8 from rfl, Nat.testBit_or, Nat.testBit_two_pow]

/-- Bit decomposition of `unlock`. -/
theorem testBit_unlock (p i : Nat) : (unlock p).testBit i = (p.testBit i && !decide (8 = i)) := by
  unfold unlock
  rw [show (1 <<< 8 : Nat) = 2 ^ 8 from rfl, Nat.testBit_ldiff, Nat.testBit_two_pow]

/-- Bit decomposition of `invalidate`. -/
theorem testBit_invalidate (p i : Nat) :
    (invalidate p).testBit i = (p.testBit i && !decide (0 = i)) := by
  unfold invalidate
  rw [show (1 : Nat) = 2 ^ 0 from rfl, Nat.testBit_ldiff, Nat.testBit_two_pow]

/-- Locking leaves the valid bit alone. -/
theorem valid_lock (p : Nat) : valid (lock p) = valid p := by
  unfold valid
  rw [testBit_lock]
  simp

/-- Locking sets the lock bit. -/
theorem locked_lock (p : Nat) : locked (lock p) = true := by
  unfold locked
  rw [testBit_lock]
  simp

/-- Locking leaves the R/W/X triple alone. -/
theorem leaf_lock (p : Nat) : leaf (lock p) = leaf p := by
  unfold leaf
  rw [testBit_lock, testBit_lock, testBit_lock]
  simp

/-- Locking leaves the PFN alone. -/
theorem pfn_lock (p : Nat) : pfn (lock p) = pfn p := by
  unfold pfn
  congr 1
  apply Nat.eq_of_testBit_eq
  intro i
  have h : ¬(8 = 10 + i) := by omega
  simp [Nat.testBit_shiftRight, testBit_lock, h]

/-- Unlocking leaves the valid bit alone. -/
theorem valid_unlock (p : Nat) : valid (unlock p) = valid p := by
  unfold valid
  rw [testBit_unlock]
  simp

/-- Unlocking clears the lock bit. -/
theorem locked_unlock (p : Nat) : locked (unlock p) = false := by
  unfold locked
  rw [testBit_unlock]
  simp

/-- Unlocking leaves the R/W/X triple alone. -/
theorem leaf_unlock (p : Nat) : leaf (unlock p) = leaf p := by
  unfold leaf
  rw [testBit_unlock, testBit_unlock, testBit_unlock]
  simp

/-- Unlocking leaves the PFN alone. -/
theorem pfn_unlock (p : Nat) : pfn (unlock p) = pfn p := by
  unfold pfn
  congr 1
  apply Nat.eq_of_testBit_eq
  intro i
  have h : ¬(8 = 10 + i) := by omega
  simp [Nat.testBit_shiftRight, testBit_unlock, h]

/-- Invalidation clears the valid bit. -/
theorem valid_invalidate (p : Nat) : valid (invalidate p) = false := by
  unfold valid
  rw [testBit_invalidate]
  simp

/-- Invalidation leaves the lock bit alone. -/
theorem locked_invalidate (p : Nat) : locked (invalidate p) = locked p := by
  unfold locked
  rw [testBit_invalidate]
  simp

/-- Invalidation leaves the PFN alone. -/
theorem pfn_invalidate (p : Nat) : pfn (invalidate p) = pfn p := by
  unfold pfn
  congr 1
  apply Nat.eq_of_testBit_eq
  intro i
  have h : ¬(0 = 10 + i) := by omega
  simp [Nat.testBit_shiftRight, testBit_invalidate, h]

/-- Unlocking an entry whose lock bit was clear before locking restores it
bitwise. -/
theorem unlock_lock (p : Nat) (h : locked p = false) : unlock (lock p) = p := by
  apply Nat.eq_of_testBit_eq
  intro i
  rw [testBit_unlock, testBit_lock]
  by_cases hi : (8 : Nat) = i
  · subst hi
    unfold locked at h
    simp [h]
  · simp [hi]

end Pte

/-- Classification test for `Locked`. -/
theorem from_pte_eq_Locked_iff (p lvl : Nat) :
    TableEntryType.from_pte p lvl = .Locked ↔ Pte.valid p = false ∧ Pte.locked p = true := by
  unfold TableEntryType.from_pte
  split_ifs with h1 h2 h3 <;> simp_all

/-- Classification test for `Invalidated`. -/
theorem from_pte_eq_Invalidated_iff (p lvl : Nat) :
    TableEntryType.from_pte p lvl = .Invalidated ↔
      Pte.valid p = false ∧ Pte.locked p = false ∧ Pte.pfn p ≠ 0 := by
  unfold TableEntryType.from_pte
  split_ifs with h1 h2 h3 <;> simp_all

/-- Classification test for `Unused`. -/
theorem from_pte_eq_Unused_iff (p lvl : Nat) :
    TableEntryType.from_pte p lvl = .Unused ↔
      Pte.valid p = false ∧ Pte.locked p = false ∧ Pte.pfn p = 0 := by
  unfold TableEntryType.from_pte
  split_ifs with h1 h2 h3 <;> simp_all

/-- Classification test for `Leaf`. -/
theorem from_pte_eq_Leaf_iff (p lvl : Nat) :
    TableEntryType.from_pte p lvl = .Leaf ↔ Pte.valid p = true ∧ Pte.leaf p = true := by
  unfold TableEntryType.from_pte
  split_ifs with h1 h2 h3 <;> simp_all

/-- Classification test for `Table`. -/
theorem from_pte_eq_Table_iff (p lvl : Nat) :
    TableEntryType.from_pte p lvl = .Table ↔ Pte.valid p = true ∧ Pte.leaf p = false := by
  unfold TableEntryType.from_pte
  split_ifs with h1 h2 h3 <;> simp_all

/-- The classification ignores the level argument. -/
theorem from_pte_level_irrelevant (p lvl lvl' : Nat) :
    TableEntryType.from_pte p lvl = TableEntryType.from_pte p lvl' := rfl

/-- C7: classification of an arbitrary 64-bit PTE at any level is total (it
is a total function on words) and assigns exactly one of the five variants,
following the check order of `TableEntryType::from_pte`: a non-valid entry is
`Locked` when the lock bit is set, otherwise `Invalidated` when the PFN is
nonzero, otherwise `Unused`; a valid entry is `Leaf` when the R/W/X triple is
nonzero and `Table` otherwise. The five right-hand conditions are mutually
exclusive and exhaustive, so each word falls in exactly one class, uniformly
in the level. -/
theorem C7_classification (p lvl : Nat) :
    (TableEntryType.from_pte p lvl = .Locked ↔
      Pte.valid p = false ∧ Pte.locked p = true) ∧
    (TableEntryType.from_pte p lvl = .Invalidated ↔
      Pte.valid p = false ∧ Pte.locked p = false ∧ Pte.pfn p ≠ 0) ∧
    (TableEntryType.from_pte p lvl = .Unused ↔
      Pte.valid p = false ∧ Pte.locked p = false ∧ Pte.pfn p = 0) ∧
    (TableEntryType.from_pte p lvl = .Leaf ↔
      Pte.valid p = true ∧ Pte.leaf p = true) ∧
    (TableEntryType.from_pte p lvl = .Table ↔
      Pte.valid p = true ∧ Pte.leaf p = false) ∧
    (TableEntryType.from_pte p lvl = TableEntryType.from_pte p 0) :=
  ⟨from_pte_eq_Locked_iff p lvl, from_pte_eq_Invalidated_iff p lvl,
   from_pte_eq_Unused_iff p lvl, from_pte_eq_Leaf_iff p lvl,
   from_pte_eq_Table_iff p lvl, from_pte_level_irrelevant p lvl 0⟩

/-- C8: for a PTE classified `Unused` or `Invalidated`, locking and then
unlocking restores the original 64-bit value bitwise, and the classification
computed by `LockedPte::unlock` (Unused when the PFN is zero, Invalidated
otherwise) equals the original classification. -/
theorem C8_lock_unlock_roundtrip (p lvl : Nat)
    (h : TableEntryType.from_pte p lvl = .Unused ∨
         TableEntryType.from_pte p lvl = .Invalidated) :
    (LockedPte.unlock (Pte.lock p)).1 = p ∧
    (LockedPte.unlock (Pte.lock p)).2 = TableEntryType.from_pte p lvl := by
  have hlocked : Pte.locked p = false := by
    rcases h with h | h
    · exact ((from_pte_eq_Unused_iff p lvl).mp h).2.1
    · exact ((from_pte_eq_Invalidated_iff p lvl).mp h).2.1
  have hvalid : Pte.valid p = false := by
    rcases h with h | h
    · exact ((from_pte_eq_Unused_iff p lvl).mp h).1
    · exact ((from_pte_eq_Invalidated_iff p lvl).mp h).1
  have hrestore : Pte.unlock (Pte.lock p) = p := Pte.unlock_lock p hlocked
  unfold LockedPte.unlock
  rw [hrestore]
  dsimp only
  refine ⟨by split_ifs <;> rfl, ?_⟩
  rcases h with h | h
  · have hpfn : Pte.pfn p = 0 := ((from_pte_eq_Unused_iff p lvl).mp h).2.2
    simp [hpfn, h]
  · have hpfn : Pte.pfn p ≠ 0 := ((from_pte_eq_Invalidated_iff p lvl).mp h).2.2
    simp [hpfn, h]

/-- C8 witness: the round trip evaluated on the concrete Invalidated entry
with PFN 1 (raw word 1024). -/
theorem C8_lock_unlock_roundtrip_witness :
    (LockedPte.unlock (Pte.lock 1024)).1 = 1024 ∧
    (LockedPte.unlock (Pte.lock 1024)).2 = TableEntryType.from_pte 1024 0 :=
  C8_lock_unlock_roundtrip 1024 0 (Or.inr (by decide))

/-- C9: for every address and level, the index the walker computes is the
claimed shift-and-mask (equivalently a mod of a power of two), and the entry
address selected by `PageTable::entry_mut` is the table base plus eight bytes
per index. -/
theorem C9_index_extraction (M : PagingMode) (a lvl base : Nat) :
    PageTableIndex.from_addr M a lvl
      = (a >>> M.addr_shift lvl) &&& ((1 <<< M.addr_width lvl) - 1) ∧
    PageTableIndex.from_addr M a lvl
      = (a >>> M.addr_shift lvl) % 2 ^ M.addr_width lvl ∧
    slotOf M base lvl a = base + PageTableIndex.from_addr M a lvl * 8 := by
  refine ⟨rfl, ?_, rfl⟩
  unfold PageTableIndex.from_addr
  rw [Nat.one_shiftLeft, Nat.and_pow_two_sub_one_eq_mod]

/-- The Sv48x4 second-stage paging mode: four levels, 9-bit indices except
for an 11-bit quadrupled root, 16 KiB root alignment. -/
def sv48x4 : PagingMode where
  numLevels := 4
  addr_shift := fun lvl => 12 + 9 * lvl
  addr_width := fun lvl => if lvl = 3 then 11 else 9
  leaf_page_size := fun lvl =>
    if lvl = 0 then .Size4k else if lvl = 1 then .Size2M
    else if lvl = 2 then .Size1G else .Size512G
  root_table_pages := 4
  top_level_align := 2 ^ 14

/-- A page tracker with no mapped and no converted frames, for concrete
examples. -/
def nullTracker : PageTracker where
  mapped := fun _ _ _ => false
  convertedVersion := fun _ _ _ => none

/-- C6 counterexample: creating a root from aligned 2 MiB pages fails with
`PageSizeNotSupported`, and that error variant carries only the page size —
the root pages are not returned inside the error, contradicting the claim
that every one of the three failure cases returns them. -/
theorem C6_counterexample :
    PageTableInner.new sv48x4 ⟨0x80000000, .Size2M, 4⟩ 1 nullTracker
      = .error (.PageSizeNotSupported .Size2M) ∧
    Error.root_pages (.PageSizeNotSupported .Size2M) = none :=
  ⟨rfl, rfl⟩

/-- C6 (amended): `new` fails with `PageSizeNotSupported` carrying only the
page size whenever the root pages are huge (this check runs first); with the
root pages not huge, it fails with `MisalignedPages` when the root base is
unaligned to `TOP_LEVEL_ALIGN` and with `InsufficientPages` when fewer than
`root_level().table_pages()` pages are supplied, and in those two cases the
root pages are returned to the caller inside the error. -/
theorem C6_new_failure_cases (M : PagingMode) (root : SequentialPages)
    (owner : Nat) (t : PageTracker) :
    (root.page_size.is_huge = true →
      PageTableInner.new M root owner t = .error (.PageSizeNotSupported root.page_size) ∧
      Error.root_pages (.PageSizeNotSupported root.page_size) = none) ∧
    (root.page_size.is_huge = false →
      root.base &&& (M.top_level_align - 1) ≠ 0 →
      PageTableInner.new M root owner t = .error (.MisalignedPages root) ∧
      Error.root_pages (.MisalignedPages root) = some root) ∧
    (root.page_size.is_huge = false →
      root.base &&& (M.top_level_align - 1) = 0 →
      root.len < M.root_table_pages →
      PageTableInner.new M root owner t = .error (.InsufficientPages root) ∧
      Error.root_pages (.InsufficientPages root) = some root) := by
  unfold PageTableInner.new
  refine ⟨fun h1 => ?_, fun h1 h2 => ?_, fun h1 h2 h3 => ?_⟩ <;>
    simp [h1, Error.root_pages]
  · intro h
    exact absurd h ‹root.base &&& (M.top_level_align - 1) ≠ 0›
  · simp [h2, h3]

/-- C6 witness: the spec's misaligned-root scenario — a 4-page 4 KiB root at
0x80001000 under Sv48x4 fails with `MisalignedPages` carrying the root. -/
theorem C6_new_failure_cases_witness :
    PageTableInner.new sv48x4 ⟨0x80001000, .Size4k, 4⟩ 0 nullTracker
      = .error (.MisalignedPages ⟨0x80001000, .Size4k, 4⟩) ∧
    Error.root_pages (.MisalignedPages ⟨0x80001000, .Size4k, 4⟩)
      = some ⟨0x80001000, .Size4k, 4⟩ :=
  (C6_new_failure_cases sv48x4 ⟨0x80001000, .Size4k, 4⟩ 0 nullTracker).2.1
    rfl (by decide)

/-- Outcome of an operation that does not change memory: a Rust panic, an
`Err`, or an `Ok` value. -/
inductive OpRes (α : Type) where
  | panic
  | err (e : Error)
  | ok (a : α)
deriving DecidableEq, Repr

/-- Outcome of a memory-mutating operation, carrying the memory state at the
point of return (for a panic, at the point of the panic). -/
inductive StRes (α : Type) where
  | panic (mem : Mem)
  | err (e : Error) (mem : Mem)
  | ok (a : α) (mem : Mem)

/-- Translation of the loop of `PageTableInner::walk` in `page_table.rs`,
recursing on the level: read the entry the table at `base` selects for
`addr`; descend through `Table` entries, stop at anything else. The result
is the slot address and level of the first non-`Table` entry;
`none` models the `unreachable` panic of `PageTablePte::table` when a
`Table`-classified entry appears at the leaf level (where `next()` is
`None`). -/
def walkAux (M : PagingMode) (mem : Mem) (addr : Nat) : Nat → Nat → Option (Nat × Nat)
  | 0, base =>
    if TableEntryType.from_pte (mem (slotOf M base 0 addr)) 0 = .Table then none
    else some (slotOf M base 0 addr, 0)
  | l + 1, base =>
    if TableEntryType.from_pte (mem (slotOf M base (l + 1) addr)) (l + 1) = .Table then
      walkAux M mem addr l (Pte.pfn (mem (slotOf M base (l + 1) addr)) * 4096)
    else some (slotOf M base (l + 1) addr, l + 1)

/-- Unfolding equation of `walkAux` at the leaf level. -/
theorem walkAux_zero (M : PagingMode) (mem : Mem) (addr base : Nat) :
    walkAux M mem addr 0 base =
      if TableEntryType.from_pte (mem (slotOf M base 0 addr)) 0 = .Table then none
      else some (slotOf M base 0 addr, 0) := rfl

/-- Unfolding equation of `walkAux` at a non-leaf level. -/
theorem walkAux_succ (M : PagingMode) (mem : Mem) (addr l base : Nat) :
    walkAux M mem addr (l + 1) base =
      if TableEntryType.from_pte (mem (slotOf M base (l + 1) addr)) (l + 1) = .Table then
        walkAux M mem addr l (Pte.pfn (mem (slotOf M base (l + 1) addr)) * 4096)
      else some (slotOf M base (l + 1) addr, l + 1) := rfl

/-- Translation of `PageTableInner::walk` in `page_table.rs`: walk from the
root. -/
def PageTableInner.walk (M : PagingMode) (mem : Mem) (rootBase addr : Nat) :
    Option (Nat × Nat) :=
  walkAux M mem addr M.rootLevel rootBase

/-- Reading a written slot yields the written value. -/
theorem writePte_eq (mem : Mem) (t v : Nat) : writePte mem t v t = v := by
  unfold writePte
  rw [if_pos rfl]

/-- Reading any other slot is unchanged by a write. -/
theorem writePte_ne (mem : Mem) (t v s : Nat) (h : s ≠ t) : writePte mem t v s = mem s := by
  unfold writePte
  rw [if_neg h]

/-- A completed walk stops at a non-`Table` entry. -/
theorem walkAux_not_table (M : PagingMode) (mem : Mem) (addr : Nat) :
    ∀ lvl base s l', walkAux M mem addr lvl base = some (s, l') →
      TableEntryType.from_pte (mem s) 0 ≠ .Table := by
  intro lvl
  induction lvl with
  | zero =>
    intro base s l' h
    rw [walkAux_zero] at h
    split_ifs at h with hc
    simp only [Option.some.injEq, Prod.mk.injEq] at h
    obtain ⟨h1, h2⟩ := h
    subst h1
    exact hc
  | succ l ih =>
    intro base s l' h
    rw [walkAux_succ] at h
    split_ifs at h with hc
    · exact ih _ s l' h
    · simp only [Option.some.injEq, Prod.mk.injEq] at h
      obtain ⟨h1, h2⟩ := h
      subst h1
      exact hc

/-- Frame rule for the walker: a write at a slot that is not classified
`Table` and is not the slot the walk stops at leaves the walk unchanged. -/
theorem walkAux_write_frame (M : PagingMode) (mem : Mem) (addr t v : Nat)
    (ht : TableEntryType.from_pte (mem t) 0 ≠ .Table) :
    ∀ lvl base s l', walkAux M mem addr lvl base = some (s, l') → t ≠ s →
      walkAux M (writePte mem t v) addr lvl base = some (s, l') := by
  intro lvl
  induction lvl with
  | zero =>
    intro base s l' h hts
    rw [walkAux_zero] at h
    rw [walkAux_zero]
    split_ifs at h with hc
    simp only [Option.some.injEq, Prod.mk.injEq] at h
    obtain ⟨h1, h2⟩ := h
    subst h1
    subst h2
    rw [writePte_ne mem t v _ (Ne.symm hts)]
    rw [if_neg hc]
  | succ l ih =>
    intro base s l' h hts
    rw [walkAux_succ] at h
    rw [walkAux_succ]
    split_ifs at h with hc
    · have ht1 : slotOf M base (l + 1) addr ≠ t := by
        intro he
        rw [← he] at ht
        exact ht hc
      rw [writePte_ne mem t v _ ht1]
      rw [if_pos hc]
      exact ih _ s l' h hts
    · simp only [Option.some.injEq, Prod.mk.injEq] at h
      obtain ⟨h1, h2⟩ := h
      subst h1
      subst h2
      rw [writePte_ne mem t v _ (Ne.symm hts)]
      rw [if_neg hc]

/-- Translation of `PageTableInner::get_mapped_4k_leaf` in `page_table.rs`:
walk to the entry for `vaddr`; it must be a `Leaf` at the leaf level whose
mapped page the tracker reports as mapped for this owner and memory type.
Returns the PTE slot address. -/
def PageTableInner.get_mapped_4k_leaf (M : PagingMode) (mem : Mem) (rootBase : Nat)
    (t : PageTracker) (owner : Nat) (vaddr : Nat) (mt : MemType) : OpRes Nat :=
  match PageTableInner.walk M mem rootBase vaddr with
  | none => .panic
  | some (s, lvl) =>
    if TableEntryType.from_pte (mem s) lvl = .Leaf then
      if lvl ≠ 0 then .err (.PageSizeNotSupported (M.leaf_page_size lvl))
      else if t.is_mapped_page (Pte.pfn (mem s) * 4096) owner mt = false then
        .err .PageNotUnmappable
      else .ok s
    else .err .PageNotMapped

/-- Translation of `PageTableInner::get_converted_4k_leaf` in
`page_table.rs`: walk to the entry for `vaddr`; it must be `Invalidated` at
the leaf level and the tracker must report the remembered frame as converted
at a TLB version older than `tlb_version`. Returns the PTE slot address. -/
def PageTableInner.get_converted_4k_leaf (M : PagingMode) (mem : Mem) (rootBase : Nat)
    (t : PageTracker) (owner : Nat) (vaddr : Nat) (mt : MemType) (tlb_version : Nat) :
    OpRes Nat :=
  match PageTableInner.walk M mem rootBase vaddr with
  | none => .panic
  | some (s, lvl) =>
    if TableEntryType.from_pte (mem s) lvl = .Invalidated then
      if lvl ≠ 0 then .err (.PageSizeNotSupported (M.leaf_page_size lvl))
      else if t.is_converted_page (Pte.pfn (mem s) * 4096) owner mt tlb_version = false then
        .err .PageNotConverted
      else .ok s
    else .err .PageNotConverted

/-- Success characterization of `get_mapped_4k_leaf`: the probe returns the
slot `s` exactly when the walk stops at `s` at the leaf level, the entry is a
`Leaf`, and the tracker reports the mapped frame. -/
theorem get_mapped_4k_leaf_ok_iff (M : PagingMode) (mem : Mem) (rootBase : Nat)
    (t : PageTracker) (owner vaddr : Nat) (mt : MemType) (s : Nat) :
    PageTableInner.get_mapped_4k_leaf M mem rootBase t owner vaddr mt = .ok s ↔
      (PageTableInner.walk M mem rootBase vaddr = some (s, 0) ∧
       TableEntryType.from_pte (mem s) 0 = .Leaf ∧
       t.is_mapped_page (Pte.pfn (mem s) * 4096) owner mt = true) := by
  unfold PageTableInner.get_mapped_4k_leaf
  cases hw : PageTableInner.walk M mem rootBase vaddr with
  | none => simp
  | some p =>
    obtain ⟨s1, lvl⟩ := p
    dsimp only
    split_ifs with h1 h2 h3
    · constructor
      · intro hcontra
        exact absurd hcontra (by simp)
      · rintro ⟨hww, hleaf, hmap⟩
        simp only [Option.some.injEq, Prod.mk.injEq] at hww
        exact absurd hww.2 h2
    · constructor
      · intro hcontra
        exact absurd hcontra (by simp)
      · rintro ⟨hww, hleaf, hmap⟩
        simp only [Option.some.injEq, Prod.mk.injEq] at hww
        obtain ⟨hs, hl⟩ := hww
        subst hs
        rw [hmap] at h3
        cases h3
    · push_neg at h2
      subst h2
      simp only [Bool.not_eq_false] at h3
      constructor
      · intro hok
        simp only [OpRes.ok.injEq] at hok
        subst hok
        exact ⟨rfl, h1, h3⟩
      · rintro ⟨hww, hleaf, hmap⟩
        simp only [Option.some.injEq, Prod.mk.injEq] at hww
        obtain ⟨hs, hl⟩ := hww
        subst hs
        rfl
    · constructor
      · intro hcontra
        exact absurd hcontra (by simp)
      · rintro ⟨hww, hleaf, hmap⟩
        simp only [Option.some.injEq, Prod.mk.injEq] at hww
        obtain ⟨hs, hl⟩ := hww
        subst hs
        exact absurd hleaf h1

/-- Success characterization of `get_converted_4k_leaf`: the probe returns
the slot `s` exactly when the walk stops at `s` at the leaf level, the entry
is `Invalidated`, and the tracker reports the frame converted at a version
older than `tlb_version`. -/
theorem get_converted_4k_leaf_ok_iff (M : PagingMode) (mem : Mem) (rootBase : Nat)
    (t : PageTracker) (owner vaddr : Nat) (mt : MemType) (tlb_version s : Nat) :
    PageTableInner.get_converted_4k_leaf M mem rootBase t owner vaddr mt tlb_version
        = .ok s ↔
      (PageTableInner.walk M mem rootBase vaddr = some (s, 0) ∧
       TableEntryType.from_pte (mem s) 0 = .Invalidated ∧
       t.is_converted_page (Pte.pfn (mem s) * 4096) owner mt tlb_version = true) := by
  unfold PageTableInner.get_converted_4k_leaf
  cases hw : PageTableInner.walk M mem rootBase vaddr with
  | none => simp
  | some p =>
    obtain ⟨s1, lvl⟩ := p
    dsimp only
    split_ifs with h1 h2 h3
    · constructor
      · intro hcontra
        exact absurd hcontra (by simp)
      · rintro ⟨hww, hinv, hconv⟩
        simp only [Option.some.injEq, Prod.mk.injEq] at hww
        exact absurd hww.2 h2
    · constructor
      · intro hcontra
        exact absurd hcontra (by simp)
      · rintro ⟨hww, hinv, hconv⟩
        simp only [Option.some.injEq, Prod.mk.injEq] at hww
        obtain ⟨hs, hl⟩ := hww
        subst hs
        rw [hconv] at h3
        cases h3
    · push_neg at h2
      subst h2
      simp only [Bool.not_eq_false] at h3
      constructor
      · intro hok
        simp only [OpRes.ok.injEq] at hok
        subst hok
        exact ⟨rfl, h1, h3⟩
      · rintro ⟨hww, hinv, hconv⟩
        simp only [Option.some.injEq, Prod.mk.injEq] at hww
        obtain ⟨hs, hl⟩ := hww
        subst hs
        rfl
    · constructor
      · intro hcontra
        exact absurd hcontra (by simp)
      · rintro ⟨hww, hinv, hconv⟩
        simp only [Option.some.injEq, Prod.mk.injEq] at hww
        obtain ⟨hs, hl⟩ := hww
        subst hs
        exact absurd hinv h1

/-- Error characterization of `get_converted_4k_leaf`: every failure is
`PageNotConverted` except when the walk stops at an `Invalidated` entry above
the leaf level, which fails with `PageSizeNotSupported` of that level's leaf
page size. -/
theorem get_converted_4k_leaf_err (M : PagingMode) (mem : Mem) (rootBase : Nat)
    (t : PageTracker) (owner vaddr : Nat) (mt : MemType) (tlb_version : Nat) (e : Error)
    (h : PageTableInner.get_converted_4k_leaf M mem rootBase t owner vaddr mt tlb_version
        = .err e) :
    e = .PageNotConverted ∨
      ∃ lvl, lvl ≠ 0 ∧ e = .PageSizeNotSupported (M.leaf_page_size lvl) := by
  unfold PageTableInner.get_converted_4k_leaf at h
  cases hw : PageTableInner.walk M mem rootBase vaddr with
  | none =>
    rw [hw] at h
    exact absurd h (by simp)
  | some p =>
    obtain ⟨s1, lvl⟩ := p
    rw [hw] at h
    dsimp only at h
    split_ifs at h with h1 h2 h3
    · simp only [OpRes.err.injEq] at h
      exact Or.inr ⟨lvl, h2, h.symm⟩
    · simp only [OpRes.err.injEq] at h
      exact Or.inl h.symm
    · simp only [OpRes.err.injEq] at h
      exact Or.inl h.symm

/-- Translation of the first, read-only phase of
`PlatformPageTable::invalidate_range`: probe `count` consecutive 4 KiB pages
starting at index `i`; `some false` at the first failing probe, `none` on a
panicking probe. -/
def allMapped (M : PagingMode) (mem : Mem) (rootBase : Nat) (t : PageTracker)
    (owner : Nat) (mt : MemType) (addr : Nat) : Nat → Nat → Option Bool
  | 0, _ => some true
  | c + 1, i =>
    match PageTableInner.get_mapped_4k_leaf M mem rootBase t owner (addr + i * 4096) mt with
    | .panic => none
    | .err _ => some false
    | .ok _ => allMapped M mem rootBase t owner mt addr c (i + 1)

/-- Translation of the second phase of `PlatformPageTable::invalidate_range`:
re-probe each page (the `unwrap` panics if the probe no longer succeeds),
clear its valid bit in place, and append the freed frame address to the
returned list. -/
def invalidateLoop (M : PagingMode) (rootBase : Nat) (t : PageTracker) (owner : Nat)
    (mt : MemType) (addr : Nat) : Nat → Nat → Mem → List Nat → StRes (List Nat)
  | 0, _, mem, acc => .ok acc mem
  | c + 1, i, mem, acc =>
    match PageTableInner.get_mapped_4k_leaf M mem rootBase t owner (addr + i * 4096) mt with
    | .ok s =>
      invalidateLoop M rootBase t owner mt addr c (i + 1)
        (writePte mem s (Pte.invalidate (mem s)))
        (acc ++ [Pte.pfn (Pte.invalidate (mem s)) * 4096])
    | _ => .panic mem

/-- Translation of `PlatformPageTable::invalidate_range` in `page_table.rs`:
reject huge page sizes, verify the whole range read-only, then invalidate
each entry and collect the frames. -/
def PlatformPageTable.invalidate_range (M : PagingMode) (mem : Mem) (rootBase : Nat)
    (t : PageTracker) (owner : Nat) (addr : Nat) (page_size : PageSize)
    (num_pages : Nat) (mt : MemType) : StRes (List Nat) :=
  if page_size.is_huge then .err (.PageSizeNotSupported page_size) mem
  else
    match allMapped M mem rootBase t owner mt addr num_pages 0 with
    | none => .panic mem
    | some false => .err .PageNotUnmappable mem
    | some true => invalidateLoop M rootBase t owner mt addr num_pages 0 mem []

/-- Translation of the loop of `PlatformPageTable::get_converted_range`:
collect the converted frame of each page in order, aborting with the first
probe's error. -/
def convLoop (M : PagingMode) (mem : Mem) (rootBase : Nat) (t : PageTracker)
    (owner : Nat) (mt : MemType) (tlb_version : Nat) (addr : Nat) :
    Nat → Nat → List Nat → OpRes (List Nat)
  | 0, _, acc => .ok acc
  | c + 1, i, acc =>
    match PageTableInner.get_converted_4k_leaf M mem rootBase t owner (addr + i * 4096)
        mt tlb_version with
    | .panic => .panic
    | .err e => .err e
    | .ok s =>
      convLoop M mem rootBase t owner mt tlb_version addr c (i + 1)
        (acc ++ [Pte.pfn (mem s) * 4096])

/-- Unfolding equation of `convLoop` for an empty range. -/
theorem convLoop_zero (M : PagingMode) (mem : Mem) (rootBase : Nat) (t : PageTracker)
    (owner : Nat) (mt : MemType) (tlb_version addr i : Nat) (acc : List Nat) :
    convLoop M mem rootBase t owner mt tlb_version addr 0 i acc = .ok acc := rfl

/-- Unfolding equation of `convLoop` for a nonempty range. -/
theorem convLoop_succ (M : PagingMode) (mem : Mem) (rootBase : Nat) (t : PageTracker)
    (owner : Nat) (mt : MemType) (tlb_version addr c i : Nat) (acc : List Nat) :
    convLoop M mem rootBase t owner mt tlb_version addr (c + 1) i acc =
      match PageTableInner.get_converted_4k_leaf M mem rootBase t owner (addr + i * 4096)
          mt tlb_version with
      | .panic => .panic
      | .err e => .err e
      | .ok s =>
        convLoop M mem rootBase t owner mt tlb_version addr c (i + 1)
          (acc ++ [Pte.pfn (mem s) * 4096]) := rfl

/-- Helper: the frames of the slots designated for window positions
`i, i+1, ..., i+c-1`, in order. -/
def frameList (slots : Nat → Nat) (mem : Mem) : Nat → Nat → List Nat
  | 0, _ => []
  | c + 1, i => Pte.pfn (mem (slots i)) * 4096 :: frameList slots mem c (i + 1)

/-- Unfolding equation of `frameList` for an empty window. -/
theorem frameList_zero (slots : Nat → Nat) (mem : Mem) (i : Nat) :
    frameList slots mem 0 i = [] := rfl

/-- Unfolding equation of `frameList` for a nonempty window. -/
theorem frameList_succ (slots : Nat → Nat) (mem : Mem) (c i : Nat) :
    frameList slots mem (c + 1) i
      = Pte.pfn (mem (slots i)) * 4096 :: frameList slots mem c (i + 1) := rfl

/-- The frame window is the mapped range of slot frames. -/
theorem frameList_eq_map (slots : Nat → Nat) (mem : Mem) :
    ∀ c i, frameList slots mem c i
      = (List.range c).map (fun j => Pte.pfn (mem (slots (i + j))) * 4096) := by
  intro c
  induction c with
  | zero =>
    intro i
    rw [frameList_zero]
    simp
  | succ c ih =>
    intro i
    rw [frameList_succ, ih (i + 1), List.range_succ_eq_map, List.map_cons, List.map_map]
    simp only [Nat.add_zero, Function.comp]
    refine congrArg (fun l => Pte.pfn (mem (slots i)) * 4096 :: l) ?_
    apply List.map_congr_left
    intro j hj
    have harith : i + 1 + j = i + (j + 1) := by omega
    rw [harith]
    rfl

/-- When every probe in the window succeeds at designated slots, the loop
returns the accumulated frames of those slots, in address order. -/
theorem convLoop_ok_of_probes (M : PagingMode) (mem : Mem) (rootBase : Nat)
    (t : PageTracker) (owner : Nat) (mt : MemType) (tlb_version addr : Nat)
    (slots : Nat → Nat) :
    ∀ c i acc,
      (∀ j, j < c → PageTableInner.get_converted_4k_leaf M mem rootBase t owner
          (addr + (i + j) * 4096) mt tlb_version = .ok (slots (i + j))) →
      convLoop M mem rootBase t owner mt tlb_version addr c i acc
        = .ok (acc ++ frameList slots mem c i) := by
  intro c
  induction c with
  | zero =>
    intro i acc h
    rw [convLoop_zero, frameList_zero]
    simp
  | succ c ih =>
    intro i acc h
    rw [convLoop_succ]
    have h0 := h 0 (by omega)
    simp only [Nat.add_zero] at h0
    rw [h0]
    dsimp only
    rw [ih (i + 1) (acc ++ [Pte.pfn (mem (slots i)) * 4096]) (fun j hj => by
      have hs := h (j + 1) (by omega)
      have harith : i + (j + 1) = i + 1 + j := by omega
      rw [harith] at hs
      exact hs)]
    rw [frameList_succ, List.append_assoc]
    rfl

/-- When the loop succeeds, every probe in the window succeeds. -/
theorem convLoop_probes_of_ok (M : PagingMode) (mem : Mem) (rootBase : Nat)
    (t : PageTracker) (owner : Nat) (mt : MemType) (tlb_version addr : Nat) :
    ∀ c i acc frames,
      convLoop M mem rootBase t owner mt tlb_version addr c i acc = .ok frames →
      ∀ j, j < c → ∃ s, PageTableInner.get_converted_4k_leaf M mem rootBase t owner
        (addr + (i + j) * 4096) mt tlb_version = .ok s := by
  intro c
  induction c with
  | zero =>
    intro i acc frames _ j hj
    exact absurd hj (by omega)
  | succ c ih =>
    intro i acc frames h j hj
    rw [convLoop_succ] at h
    cases hp : PageTableInner.get_converted_4k_leaf M mem rootBase t owner
        (addr + i * 4096) mt tlb_version with
    | panic =>
      rw [hp] at h
      exact absurd h (by simp)
    | err e =>
      rw [hp] at h
      exact absurd h (by simp)
    | ok s =>
      rw [hp] at h
      dsimp only at h
      cases j with
      | zero => exact ⟨s, hp⟩
      | succ j =>
        have := ih (i + 1) _ frames h j (by omega)
        have harith : i + 1 + j = i + (j + 1) := by omega
        rw [harith] at this
        exact this

/-- The loop propagates the error of the first failing probe. -/
theorem convLoop_err_at (M : PagingMode) (mem : Mem) (rootBase : Nat)
    (t : PageTracker) (owner : Nat) (mt : MemType) (tlb_version addr : Nat) :
    ∀ c i acc k e, k < c →
      (∀ j, j < k → ∃ s, PageTableInner.get_converted_4k_leaf M mem rootBase t owner
        (addr + (i + j) * 4096) mt tlb_version = .ok s) →
      PageTableInner.get_converted_4k_leaf M mem rootBase t owner (addr + (i + k) * 4096)
        mt tlb_version = .err e →
      convLoop M mem rootBase t owner mt tlb_version addr c i acc = .err e := by
  intro c
  induction c with
  | zero =>
    intro i acc k e hk _ _
    exact absurd hk (by omega)
  | succ c ih =>
    intro i acc k e hk hok herr
    rw [convLoop_succ]
    cases k with
    | zero =>
      simp only [Nat.add_zero] at herr
      rw [herr]
    | succ k =>
      obtain ⟨s, hs⟩ := hok 0 (by omega)
      simp only [Nat.add_zero] at hs
      rw [hs]
      dsimp only
      apply ih (i + 1) _ k e (by omega)
      · intro j hj
        have := hok (j + 1) (by omega)
        have harith : i + (j + 1) = i + 1 + j := by omega
        rw [harith] at this
        exact this
      · have harith : i + (k + 1) = i + 1 + k := by omega
        rw [harith] at herr
        exact herr

/-- The length of a successful collection is the window size plus the
accumulator. -/
theorem convLoop_ok_length (M : PagingMode) (mem : Mem) (rootBase : Nat)
    (t : PageTracker) (owner : Nat) (mt : MemType) (tlb_version addr : Nat) :
    ∀ c i acc frames,
      convLoop M mem rootBase t owner mt tlb_version addr c i acc = .ok frames →
      frames.length = acc.length + c := by
  intro c
  induction c with
  | zero =>
    intro i acc frames h
    rw [convLoop_zero] at h
    simp only [OpRes.ok.injEq] at h
    subst h
    simp
  | succ c ih =>
    intro i acc frames h
    rw [convLoop_succ] at h
    cases hp : PageTableInner.get_converted_4k_leaf M mem rootBase t owner
        (addr + i * 4096) mt tlb_version with
    | panic =>
      rw [hp] at h
      exact absurd h (by simp)
    | err e =>
      rw [hp] at h
      exact absurd h (by simp)
    | ok s =>
      rw [hp] at h
      dsimp only at h
      have := ih (i + 1) _ frames h
      simp at this
      omega

/-- Translation of `PlatformPageTable::get_converted_range` in
`page_table.rs`: reject huge page sizes, then collect the whole range
(memory is never mutated; the tracker-side locking of the returned list is
outside the engine). -/
def PlatformPageTable.get_converted_range (M : PagingMode) (mem : Mem) (rootBase : Nat)
    (t : PageTracker) (owner : Nat) (addr : Nat) (page_size : PageSize)
    (num_pages : Nat) (mt : MemType) (tlb_version : Nat) : OpRes (List Nat) :=
  if page_size.is_huge then .err (.PageSizeNotSupported page_size)
  else convLoop M mem rootBase t owner mt tlb_version addr num_pages 0 []

/-- When every probe in the window succeeds, the loop succeeds. -/
theorem convLoop_ok_of_exists (M : PagingMode) (mem : Mem) (rootBase : Nat)
    (t : PageTracker) (owner : Nat) (mt : MemType) (tlb_version addr : Nat) :
    ∀ c i acc,
      (∀ j, j < c → ∃ s, PageTableInner.get_converted_4k_leaf M mem rootBase t owner
          (addr + (i + j) * 4096) mt tlb_version = .ok s) →
      ∃ frames, convLoop M mem rootBase t owner mt tlb_version addr c i acc
        = .ok frames := by
  intro c
  induction c with
  | zero =>
    intro i acc _
    exact ⟨acc, convLoop_zero M mem rootBase t owner mt tlb_version addr i acc⟩
  | succ c ih =>
    intro i acc h
    obtain ⟨s, hs⟩ := h 0 (by omega)
    simp only [Nat.add_zero] at hs
    rw [convLoop_succ, hs]
    dsimp only
    apply ih (i + 1)
    intro j hj
    have := h (j + 1) (by omega)
    have harith : i + (j + 1) = i + 1 + j := by omega
    rw [harith] at this
    exact this

/-- Unfolding of `get_converted_range` for a non-huge page size. -/
theorem get_converted_range_eq (M : PagingMode) (mem : Mem) (rootBase : Nat)
    (t : PageTracker) (owner addr : Nat) (page_size : PageSize) (num_pages : Nat)
    (mt : MemType) (tlb_version : Nat) (hps : page_size.is_huge = false) :
    PlatformPageTable.get_converted_range M mem rootBase t owner addr page_size num_pages
        mt tlb_version
      = convLoop M mem rootBase t owner mt tlb_version addr num_pages 0 [] := by
  unfold PlatformPageTable.get_converted_range
  simp [hps]

/-- C3 (amended): with a 4 KiB page size, `get_converted_range` succeeds and
returns `num_pages` frames exactly when for every address of the range the
walk ends in an `Invalidated` PTE at the leaf level whose remembered frame
the tracker reports converted at a TLB version strictly older than
`tlb_version` (the per-address probe characterization is part of the
statement); with designated slots the returned frames are exactly the
remembered frames in order; and the first failing address aborts the whole
call with that probe's error — `PageNotConverted`, except that an
`Invalidated` entry above the leaf level aborts with `PageSizeNotSupported`
of that level's page size. No mixed success is possible. -/
theorem C3_get_converted_range (M : PagingMode) (mem : Mem) (rootBase : Nat)
    (t : PageTracker) (owner addr : Nat) (page_size : PageSize) (num_pages : Nat)
    (mt : MemType) (tlb_version : Nat) (slots : Nat → Nat)
    (hps : page_size.is_huge = false) :
    ((∃ frames, PlatformPageTable.get_converted_range M mem rootBase t owner addr
        page_size num_pages mt tlb_version = .ok frames) ↔
      (∀ i, i < num_pages → ∃ s, PageTableInner.get_converted_4k_leaf M mem rootBase t
        owner (addr + i * 4096) mt tlb_version = .ok s)) ∧
    (∀ frames, PlatformPageTable.get_converted_range M mem rootBase t owner addr
        page_size num_pages mt tlb_version = .ok frames →
      frames.length = num_pages) ∧
    (∀ i s, PageTableInner.get_converted_4k_leaf M mem rootBase t owner (addr + i * 4096)
        mt tlb_version = .ok s ↔
      (PageTableInner.walk M mem rootBase (addr + i * 4096) = some (s, 0) ∧
       TableEntryType.from_pte (mem s) 0 = .Invalidated ∧
       t.is_converted_page (Pte.pfn (mem s) * 4096) owner mt tlb_version = true)) ∧
    ((∀ i, i < num_pages → PageTableInner.get_converted_4k_leaf M mem rootBase t owner
        (addr + i * 4096) mt tlb_version = .ok (slots i)) →
      PlatformPageTable.get_converted_range M mem rootBase t owner addr page_size
          num_pages mt tlb_version
        = .ok ((List.range num_pages).map (fun i => Pte.pfn (mem (slots i)) * 4096))) ∧
    (∀ k e, k < num_pages →
      (∀ j, j < k → ∃ s, PageTableInner.get_converted_4k_leaf M mem rootBase t owner
        (addr + j * 4096) mt tlb_version = .ok s) →
      PageTableInner.get_converted_4k_leaf M mem rootBase t owner (addr + k * 4096) mt
        tlb_version = .err e →
      PlatformPageTable.get_converted_range M mem rootBase t owner addr page_size
        num_pages mt tlb_version = .err e ∧
      (e = .PageNotConverted ∨
        ∃ lvl, lvl ≠ 0 ∧ e = .PageSizeNotSupported (M.leaf_page_size lvl))) := by
  rw [get_converted_range_eq M mem rootBase t owner addr page_size num_pages mt
    tlb_version hps]
  refine ⟨⟨?_, ?_⟩, ?_, ?_, ?_, ?_⟩
  · rintro ⟨frames, hf⟩ i hi
    have := convLoop_probes_of_ok M mem rootBase t owner mt tlb_version addr num_pages 0
      [] frames hf i hi
    simpa using this
  · intro hall
    apply convLoop_ok_of_exists
    intro j hj
    simpa using hall j hj
  · intro frames hf
    have := convLoop_ok_length M mem rootBase t owner mt tlb_version addr num_pages 0
      [] frames hf
    simpa using this
  · intro i s
    exact get_converted_4k_leaf_ok_iff M mem rootBase t owner (addr + i * 4096) mt
      tlb_version s
  · intro hall
    have hlist : frameList slots mem num_pages 0
        = (List.range num_pages).map (fun i => Pte.pfn (mem (slots i)) * 4096) := by
      rw [frameList_eq_map]
      apply List.map_congr_left
      intro j hj
      rw [Nat.zero_add]
    have := convLoop_ok_of_probes M mem rootBase t owner mt tlb_version addr slots
      num_pages 0 [] (fun j hj => by simpa using hall j hj)
    rw [this, List.nil_append, hlist]
  · intro k e hk hfirst herr
    constructor
    · apply convLoop_err_at M mem rootBase t owner mt tlb_version addr num_pages 0 [] k e
        hk
      · intro j hj
        simpa using hfirst j hj
      · simpa using herr
    · exact get_converted_4k_leaf_err M mem rootBase t owner (addr + k * 4096) mt
        tlb_version e herr

/-- Concrete memory exhibiting an `Invalidated` entry at the Sv48x4 root
level: the only nonzero PTE slot is the first root entry, holding PFN 1 with
the valid and lock bits clear. -/
def cexMem : Mem := fun s => if s = 0x80000000 then 1024 else 0

/-- C3 counterexample: on `cexMem` the first (and only) address of the range
fails the converted-leaf check, but the call aborts with
`PageSizeNotSupported` for the 512 GiB root level, not with
`PageNotConverted` as the claim requires. -/
theorem C3_counterexample :
    PlatformPageTable.get_converted_range sv48x4 cexMem 0x80000000 nullTracker 0 0
        .Size4k 1 .Ram 1
      = .err (.PageSizeNotSupported .Size512G) ∧
    (OpRes.err (Error.PageSizeNotSupported .Size512G) : OpRes (List Nat))
      ≠ .err .PageNotConverted ∧
    PageTableInner.get_converted_4k_leaf sv48x4 cexMem 0x80000000 nullTracker 0 0 .Ram 1
      = .err (.PageSizeNotSupported .Size512G) :=
  ⟨rfl, by decide, rfl⟩

/-- Concrete four-level Sv48x4 hierarchy with one invalidated leaf:
root table 0x80000000 points to 0x81000000, then 0x82000000, then
0x83000000, whose first entry remembers frame 0x90000000 in an
`Invalidated` PTE. -/
def convMem : Mem := fun s =>
  if s = 0x80000000 then Pte.set 0x81000 PteFieldBits.non_leaf
  else if s = 0x81000000 then Pte.set 0x82000 PteFieldBits.non_leaf
  else if s = 0x82000000 then Pte.set 0x83000 PteFieldBits.non_leaf
  else if s = 0x83000000 then Pte.set 0x90000 0
  else 0

/-- A tracker that reports frame 0x90000000 converted at TLB version 0. -/
def convTracker : PageTracker where
  mapped := fun _ _ _ => false
  convertedVersion := fun p _ _ => if p = 0x90000000 then some 0 else none

/-- C3 witness: on the concrete hierarchy the call returns the single
remembered frame. -/
theorem C3_get_converted_range_witness :
    PlatformPageTable.get_converted_range sv48x4 convMem 0x80000000 convTracker 0 0
        .Size4k 1 .Ram 1
      = .ok [0x90000000] :=
  (C3_get_converted_range sv48x4 convMem 0x80000000 convTracker 0 0 .Size4k 1 .Ram 1
      (fun _ => 0x83000000) rfl).2.2.2.1
    (fun i hi => by
      have h0 : i = 0 := by omega
      subst h0
      rfl)

/-- Unfolding equation of `allMapped` for an empty range. -/
theorem allMapped_zero (M : PagingMode) (mem : Mem) (rootBase : Nat) (t : PageTracker)
    (owner : Nat) (mt : MemType) (addr i : Nat) :
    allMapped M mem rootBase t owner mt addr 0 i = some true := rfl

/-- Unfolding equation of `allMapped` for a nonempty range. -/
theorem allMapped_succ (M : PagingMode) (mem : Mem) (rootBase : Nat) (t : PageTracker)
    (owner : Nat) (mt : MemType) (addr c i : Nat) :
    allMapped M mem rootBase t owner mt addr (c + 1) i =
      match PageTableInner.get_mapped_4k_leaf M mem rootBase t owner (addr + i * 4096) mt with
      | .panic => none
      | .err _ => some false
      | .ok _ => allMapped M mem rootBase t owner mt addr c (i + 1) := rfl

/-- When every probe of the window succeeds, the read-only scan reports
true. -/
theorem allMapped_true_of (M : PagingMode) (mem : Mem) (rootBase : Nat) (t : PageTracker)
    (owner : Nat) (mt : MemType) (addr : Nat) :
    ∀ c i,
      (∀ j, j < c → ∃ s, PageTableInner.get_mapped_4k_leaf M mem rootBase t owner
          (addr + (i + j) * 4096) mt = .ok s) →
      allMapped M mem rootBase t owner mt addr c i = some true := by
  intro c
  induction c with
  | zero =>
    intro i _
    exact allMapped_zero M mem rootBase t owner mt addr i
  | succ c ih =>
    intro i h
    obtain ⟨s, hs⟩ := h 0 (by omega)
    simp only [Nat.add_zero] at hs
    rw [allMapped_succ, hs]
    dsimp only
    apply ih
    intro j hj
    have := h (j + 1) (by omega)
    have harith : i + (j + 1) = i + 1 + j := by omega
    rw [harith] at this
    exact this

/-- The read-only scan reports false when the first failing probe returns an
error. -/
theorem allMapped_false_at (M : PagingMode) (mem : Mem) (rootBase : Nat) (t : PageTracker)
    (owner : Nat) (mt : MemType) (addr : Nat) :
    ∀ c i k e, k < c →
      (∀ j, j < k → ∃ s, PageTableInner.get_mapped_4k_leaf M mem rootBase t owner
          (addr + (i + j) * 4096) mt = .ok s) →
      PageTableInner.get_mapped_4k_leaf M mem rootBase t owner (addr + (i + k) * 4096) mt
        = .err e →
      allMapped M mem rootBase t owner mt addr c i = some false := by
  intro c
  induction c with
  | zero =>
    intro i k e hk _ _
    exact absurd hk (by omega)
  | succ c ih =>
    intro i k e hk hok herr
    rw [allMapped_succ]
    cases k with
    | zero =>
      simp only [Nat.add_zero] at herr
      rw [herr]
    | succ k =>
      obtain ⟨s, hs⟩ := hok 0 (by omega)
      simp only [Nat.add_zero] at hs
      rw [hs]
      dsimp only
      apply ih (i + 1) k e (by omega)
      · intro j hj
        have := hok (j + 1) (by omega)
        have harith : i + (j + 1) = i + 1 + j := by omega
        rw [harith] at this
        exact this
      · have harith : i + (k + 1) = i + 1 + k := by omega
        rw [harith] at herr
        exact herr

/-- The frame window only reads the designated slots, so it is stable under
memory changes away from them. -/
theorem frameList_congr (slots : Nat → Nat) (mem mem' : Mem) :
    ∀ c i, (∀ j, j < c → mem' (slots (i + j)) = mem (slots (i + j))) →
      frameList slots mem' c i = frameList slots mem c i := by
  intro c
  induction c with
  | zero =>
    intro i _
    rw [frameList_zero, frameList_zero]
  | succ c ih =>
    intro i h
    have h0 := h 0 (by omega)
    simp only [Nat.add_zero] at h0
    rw [frameList_succ, frameList_succ, h0, ih (i + 1) (fun j hj => by
      have := h (j + 1) (by omega)
      have harith : i + (j + 1) = i + 1 + j := by omega
      rw [harith] at this
      exact this)]

/-- Unfolding equation of `invalidateLoop` for an empty range. -/
theorem invalidateLoop_zero (M : PagingMode) (rootBase : Nat) (t : PageTracker)
    (owner : Nat) (mt : MemType) (addr i : Nat) (mem : Mem) (acc : List Nat) :
    invalidateLoop M rootBase t owner mt addr 0 i mem acc = .ok acc mem := rfl

/-- Unfolding equation of `invalidateLoop` for a nonempty range. -/
theorem invalidateLoop_succ (M : PagingMode) (rootBase : Nat) (t : PageTracker)
    (owner : Nat) (mt : MemType) (addr c i : Nat) (mem : Mem) (acc : List Nat) :
    invalidateLoop M rootBase t owner mt addr (c + 1) i mem acc =
      match PageTableInner.get_mapped_4k_leaf M mem rootBase t owner (addr + i * 4096) mt with
      | .ok s =>
        invalidateLoop M rootBase t owner mt addr c (i + 1)
          (writePte mem s (Pte.invalidate (mem s)))
          (acc ++ [Pte.pfn (Pte.invalidate (mem s)) * 4096])
      | _ => .panic mem := rfl

/-- Main induction for the invalidation pass: when every probe of the window
succeeds at pairwise distinct slots, the pass succeeds, invalidates exactly
those slots in place, collects their frames in order, and touches nothing
else. -/
theorem invalidateLoop_ok (M : PagingMode) (rootBase : Nat) (t : PageTracker)
    (owner : Nat) (mt : MemType) (addr : Nat) (slots : Nat → Nat) :
    ∀ c i mem acc,
      (∀ j, j < c → PageTableInner.get_mapped_4k_leaf M mem rootBase t owner
          (addr + (i + j) * 4096) mt = .ok (slots (i + j))) →
      (∀ j k, j < c → k < c → j ≠ k → slots (i + j) ≠ slots (i + k)) →
      ∃ memF,
        invalidateLoop M rootBase t owner mt addr c i mem acc
          = .ok (acc ++ frameList slots mem c i) memF ∧
        (∀ j, j < c → memF (slots (i + j)) = Pte.invalidate (mem (slots (i + j)))) ∧
        (∀ s, (∀ j, j < c → s ≠ slots (i + j)) → memF s = mem s) := by
  intro c
  induction c with
  | zero =>
    intro i mem acc _ _
    refine ⟨mem, ?_, fun j hj => absurd hj (by omega), fun s _ => rfl⟩
    rw [invalidateLoop_zero, frameList_zero, List.append_nil]
  | succ c ih =>
    intro i mem acc h hd
    have h0 := h 0 (by omega)
    simp only [Nat.add_zero] at h0
    obtain ⟨hw0, hleaf0, hmap0⟩ :=
      (get_mapped_4k_leaf_ok_iff M mem rootBase t owner (addr + i * 4096) mt
        (slots i)).mp h0
    have hnt : TableEntryType.from_pte (mem (slots i)) 0 ≠ .Table := by
      rw [hleaf0]
      decide
    rw [invalidateLoop_succ, h0]
    dsimp only
    have hprobes : ∀ j, j < c →
        PageTableInner.get_mapped_4k_leaf M
          (writePte mem (slots i) (Pte.invalidate (mem (slots i)))) rootBase t owner
          (addr + (i + 1 + j) * 4096) mt = .ok (slots (i + 1 + j)) := by
      intro j hj
      have hj1 := h (j + 1) (by omega)
      have harith : i + (j + 1) = i + 1 + j := by omega
      rw [harith] at hj1
      obtain ⟨hwj, hleafj, hmapj⟩ :=
        (get_mapped_4k_leaf_ok_iff M mem rootBase t owner (addr + (i + 1 + j) * 4096) mt
          (slots (i + 1 + j))).mp hj1
      have hne : slots i ≠ slots (i + 1 + j) := by
        have := hd 0 (j + 1) (by omega) (by omega) (by omega)
        simp only [Nat.add_zero] at this
        have harith2 : i + (j + 1) = i + 1 + j := by omega
        rw [harith2] at this
        exact this
      have hval : writePte mem (slots i) (Pte.invalidate (mem (slots i)))
          (slots (i + 1 + j)) = mem (slots (i + 1 + j)) :=
        writePte_ne mem (slots i) (Pte.invalidate (mem (slots i))) (slots (i + 1 + j))
          (Ne.symm hne)
      apply (get_mapped_4k_leaf_ok_iff M _ rootBase t owner (addr + (i + 1 + j) * 4096)
        mt (slots (i + 1 + j))).mpr
      refine ⟨?_, ?_, ?_⟩
      · unfold PageTableInner.walk at hwj ⊢
        exact walkAux_write_frame M mem (addr + (i + 1 + j) * 4096) (slots i)
          (Pte.invalidate (mem (slots i))) hnt M.rootLevel rootBase (slots (i + 1 + j)) 0
          hwj hne
      · rw [hval]
        exact hleafj
      · rw [hval]
        exact hmapj
    have hdist1 : ∀ j k, j < c → k < c → j ≠ k →
        slots (i + 1 + j) ≠ slots (i + 1 + k) := by
      intro j k hj hk hjk
      have := hd (j + 1) (k + 1) (by omega) (by omega) (by omega)
      have ha : i + (j + 1) = i + 1 + j := by omega
      have hb : i + (k + 1) = i + 1 + k := by omega
      rw [ha, hb] at this
      exact this
    obtain ⟨memF, hloop, hinv, hframe⟩ := ih (i + 1)
      (writePte mem (slots i) (Pte.invalidate (mem (slots i))))
      (acc ++ [Pte.pfn (Pte.invalidate (mem (slots i))) * 4096]) hprobes hdist1
    refine ⟨memF, ?_, ?_, ?_⟩
    · rw [hloop]
      have hfl : frameList slots (writePte mem (slots i) (Pte.invalidate (mem (slots i))))
          c (i + 1) = frameList slots mem c (i + 1) := by
        apply frameList_congr
        intro j hj
        apply writePte_ne
        apply Ne.symm
        have := hd 0 (j + 1) (by omega) (by omega) (by omega)
        simp only [Nat.add_zero] at this
        have harith : i + (j + 1) = i + 1 + j := by omega
        rw [harith] at this
        exact this
      rw [hfl, frameList_succ, Pte.pfn_invalidate, List.append_assoc]
      rfl
    · intro j hj
      cases j with
      | zero =>
        simp only [Nat.add_zero]
        have huntouched : memF (slots i)
            = writePte mem (slots i) (Pte.invalidate (mem (slots i))) (slots i) := by
          apply hframe
          intro j hj
          have := hd 0 (j + 1) (by omega) (by omega) (by omega)
          simp only [Nat.add_zero] at this
          have harith : i + (j + 1) = i + 1 + j := by omega
          rw [harith] at this
          exact this
        rw [huntouched, writePte_eq]
      | succ j =>
        have harith : i + (j + 1) = i + 1 + j := by omega
        rw [harith]
        have := hinv j (by omega)
        have hval : writePte mem (slots i) (Pte.invalidate (mem (slots i)))
            (slots (i + 1 + j)) = mem (slots (i + 1 + j)) := by
          apply writePte_ne
          apply Ne.symm
          have hne := hd 0 (j + 1) (by omega) (by omega) (by omega)
          simp only [Nat.add_zero] at hne
          have harith2 : i + (j + 1) = i + 1 + j := by omega
          rw [harith2] at hne
          exact hne
        rw [this, hval]
    · intro s hs
      have h1 : memF s = writePte mem (slots i) (Pte.invalidate (mem (slots i))) s := by
        apply hframe
        intro j hj
        have := hs (j + 1) (by omega)
        have harith : i + (j + 1) = i + 1 + j := by omega
        rw [harith] at this
        exact this
      rw [h1]
      apply writePte_ne
      have := hs 0 (by omega)
      simp only [Nat.add_zero] at this
      exact this

/-- Unfolding of `invalidate_range` for a non-huge page size. -/
theorem invalidate_range_eq (M : PagingMode) (mem : Mem) (rootBase : Nat)
    (t : PageTracker) (owner addr : Nat) (page_size : PageSize) (num_pages : Nat)
    (mt : MemType) (hps : page_size.is_huge = false) :
    PlatformPageTable.invalidate_range M mem rootBase t owner addr page_size num_pages mt
      = match allMapped M mem rootBase t owner mt addr num_pages 0 with
        | none => .panic mem
        | some false => .err .PageNotUnmappable mem
        | some true => invalidateLoop M rootBase t owner mt addr num_pages 0 mem [] := by
  unfold PlatformPageTable.invalidate_range
  simp [hps]

/-- Helper projection: the value of a successful stateful result. -/
def StRes.valueOf {α : Type} : StRes α → Option α
  | .ok a _ => some a
  | _ => none

/-- C2: over a range of `num_pages` 4 KiB pages starting at `addr`,
`invalidate_range` either (when some probe of the range fails after a prefix
of successful ones) fails with `PageNotUnmappable` leaving every PTE in the
hierarchy unchanged, or (when every probe succeeds at pairwise distinct leaf
slots that, as the hierarchy invariants guarantee, hold unlocked PTEs with
nonzero PFN) transitions every target PTE from `Leaf` to `Invalidated` in
place, preserving each PTE's PFN, touching no other slot, and returns the
frames in a list. -/
theorem C2_invalidate_range (M : PagingMode) (mem : Mem) (rootBase : Nat)
    (t : PageTracker) (owner addr : Nat) (page_size : PageSize) (num_pages : Nat)
    (mt : MemType) (slots : Nat → Nat) (hps : page_size.is_huge = false) :
    (∀ k e, k < num_pages →
      (∀ j, j < k → ∃ s, PageTableInner.get_mapped_4k_leaf M mem rootBase t owner
        (addr + j * 4096) mt = .ok s) →
      PageTableInner.get_mapped_4k_leaf M mem rootBase t owner (addr + k * 4096) mt
        = .err e →
      PlatformPageTable.invalidate_range M mem rootBase t owner addr page_size num_pages
        mt = .err .PageNotUnmappable mem) ∧
    ((∀ i, i < num_pages → PageTableInner.get_mapped_4k_leaf M mem rootBase t owner
        (addr + i * 4096) mt = .ok (slots i)) →
     (∀ i j, i < num_pages → j < num_pages → i ≠ j → slots i ≠ slots j) →
     (∀ i, i < num_pages → Pte.locked (mem (slots i)) = false) →
     (∀ i, i < num_pages → Pte.pfn (mem (slots i)) ≠ 0) →
      ∃ memF,
        PlatformPageTable.invalidate_range M mem rootBase t owner addr page_size
            num_pages mt
          = .ok ((List.range num_pages).map (fun i => Pte.pfn (mem (slots i)) * 4096))
              memF ∧
        (∀ i, i < num_pages →
          TableEntryType.from_pte (mem (slots i)) 0 = .Leaf ∧
          memF (slots i) = Pte.invalidate (mem (slots i)) ∧
          TableEntryType.from_pte (memF (slots i)) 0 = .Invalidated ∧
          Pte.pfn (memF (slots i)) = Pte.pfn (mem (slots i))) ∧
        (∀ s, (∀ i, i < num_pages → s ≠ slots i) → memF s = mem s)) := by
  rw [invalidate_range_eq M mem rootBase t owner addr page_size num_pages mt hps]
  constructor
  · intro k e hk hok herr
    have hfalse : allMapped M mem rootBase t owner mt addr num_pages 0 = some false := by
      apply allMapped_false_at M mem rootBase t owner mt addr num_pages 0 k e hk
      · intro j hj
        simpa using hok j hj
      · simpa using herr
    rw [hfalse]
  · intro hall hdist hclean hpfn
    have htrue : allMapped M mem rootBase t owner mt addr num_pages 0 = some true := by
      apply allMapped_true_of
      intro j hj
      exact ⟨slots j, by simpa using hall j hj⟩
    rw [htrue]
    dsimp only
    obtain ⟨memF, hloop, hinv, hframe⟩ :=
      invalidateLoop_ok M rootBase t owner mt addr slots num_pages 0 mem []
        (fun j hj => by simpa using hall j hj)
        (fun j k hj hk hjk => by simpa using hdist j k hj hk hjk)
    refine ⟨memF, ?_, ?_, ?_⟩
    · rw [hloop, List.nil_append]
      have hlist : frameList slots mem num_pages 0
          = (List.range num_pages).map (fun i => Pte.pfn (mem (slots i)) * 4096) := by
        rw [frameList_eq_map]
        apply List.map_congr_left
        intro j hj
        rw [Nat.zero_add]
      rw [hlist]
    · intro i hi
      have hinvi := hinv i hi
      simp only [Nat.zero_add] at hinvi
      have hleafi : TableEntryType.from_pte (mem (slots i)) 0 = .Leaf :=
        ((get_mapped_4k_leaf_ok_iff M mem rootBase t owner (addr + i * 4096) mt
          (slots i)).mp (hall i hi)).2.1
      refine ⟨hleafi, hinvi, ?_, ?_⟩
      · rw [hinvi]
        apply (from_pte_eq_Invalidated_iff _ 0).mpr
        refine ⟨Pte.valid_invalidate _, ?_, ?_⟩
        · rw [Pte.locked_invalidate]
          exact hclean i hi
        · rw [Pte.pfn_invalidate]
          exact hpfn i hi
      · rw [hinvi, Pte.pfn_invalidate]
    · intro s hs
      apply hframe
      intro j hj
      simpa using hs j hj

/-- Concrete four-level Sv48x4 hierarchy with one mapped leaf: the chain
0x80000000 → 0x81000000 → 0x82000000 → 0x83000000 ends in a valid
user-RWX leaf mapping frame 0x90000000. -/
def invMem : Mem := fun s =>
  if s = 0x80000000 then Pte.set 0x81000 PteFieldBits.non_leaf
  else if s = 0x81000000 then Pte.set 0x82000 PteFieldBits.non_leaf
  else if s = 0x82000000 then Pte.set 0x83000 PteFieldBits.non_leaf
  else if s = 0x83000000 then
    Pte.set 0x90000 (PteFieldBits.leaf_with_perms .RWX ||| PteFieldBit.User)
  else 0

/-- A tracker that reports frame 0x90000000 mapped for every owner. -/
def mapTracker : PageTracker where
  mapped := fun p _ _ => if p = 0x90000000 then true else false
  convertedVersion := fun _ _ _ => none

/-- C2 witness: invalidating the single mapped page of the concrete
hierarchy returns its frame. -/
theorem C2_invalidate_range_witness :
    StRes.valueOf (PlatformPageTable.invalidate_range sv48x4 invMem 0x80000000
        mapTracker 0 0 .Size4k 1 .Ram)
      = some [0x90000000] := by
  obtain ⟨memF, hEq, _, _⟩ :=
    (C2_invalidate_range sv48x4 invMem 0x80000000 mapTracker 0 0 .Size4k 1 .Ram
        (fun _ => 0x83000000) rfl).2
      (fun i hi => by
        have h0 : i = 0 := by omega
        subst h0
        rfl)
      (fun i j hi hj hij => by omega)
      (fun i hi => by
        have h0 : i = 0 := by omega
        subst h0
        rfl)
      (fun i hi => by
        have h0 : i = 0 := by omega
        subst h0
        decide)
  rw [hEq]
  rfl

/-- Helper projection: the memory component of a stateful result. -/
def StRes.memOf {α : Type} : StRes α → Mem
  | .panic m => m
  | .err _ m => m
  | .ok _ m => m

/-- Translation of the fill-in walk of `PageTableInner::lock_4k_leaf_for_mapping`
(the `while !table.level().is_leaf()` loop over `next_level_or_fill_fn` in
`page_table.rs`): descend to the leaf level, descending through `Table`
entries, installing a supplier page as a next-level table at each `Unused`
entry (`InsufficientPtePages` when the supplier is exhausted), and failing
with `MappingExists` on anything else. Returns the leaf-level slot address
and the remaining supplier pages. -/
def fillWalk (M : PagingMode) (addr : Nat) :
    Nat → Nat → Mem → List Nat → StRes (Nat × List Nat)
  | 0, base, mem, sup => .ok (slotOf M base 0 addr, sup) mem
  | l + 1, base, mem, sup =>
    if TableEntryType.from_pte (mem (slotOf M base (l + 1) addr)) (l + 1) = .Table then
      fillWalk M addr l (Pte.pfn (mem (slotOf M base (l + 1) addr)) * 4096) mem sup
    else if TableEntryType.from_pte (mem (slotOf M base (l + 1) addr)) (l + 1)
        = .Unused then
      match sup with
      | [] => .err .InsufficientPtePages mem
      | pg :: rest =>
        fillWalk M addr l
          (Pte.pfn (Pte.set (pg / 4096) PteFieldBits.non_leaf) * 4096)
          (writePte mem (slotOf M base (l + 1) addr)
            (Pte.set (pg / 4096) PteFieldBits.non_leaf))
          rest
    else .err .MappingExists mem

/-- Unfolding equation of `fillWalk` at the leaf level. -/
theorem fillWalk_zero (M : PagingMode) (addr base : Nat) (mem : Mem) (sup : List Nat) :
    fillWalk M addr 0 base mem sup = .ok (slotOf M base 0 addr, sup) mem := rfl

/-- Unfolding equation of `fillWalk` at a non-leaf level. -/
theorem fillWalk_succ (M : PagingMode) (addr l base : Nat) (mem : Mem) (sup : List Nat) :
    fillWalk M addr (l + 1) base mem sup =
      if TableEntryType.from_pte (mem (slotOf M base (l + 1) addr)) (l + 1) = .Table then
        fillWalk M addr l (Pte.pfn (mem (slotOf M base (l + 1) addr)) * 4096) mem sup
      else if TableEntryType.from_pte (mem (slotOf M base (l + 1) addr)) (l + 1)
          = .Unused then
        match sup with
        | [] => .err .InsufficientPtePages mem
        | pg :: rest =>
          fillWalk M addr l
            (Pte.pfn (Pte.set (pg / 4096) PteFieldBits.non_leaf) * 4096)
            (writePte mem (slotOf M base (l + 1) addr)
              (Pte.set (pg / 4096) PteFieldBits.non_leaf))
            rest
      else .err .MappingExists mem := rfl

/-- Translation of `PageTableInner::lock_4k_leaf_for_mapping` in
`page_table.rs`: fill-walk to the leaf entry, then lock an `Invalidated` or
`Unused` PTE (`PteLocked` when already locked, `MappingExists` for a live
leaf, and the unreachable `Table` arm panics). -/
def lock_4k_leaf_for_mapping (M : PagingMode) (mem : Mem) (rootBase vaddr : Nat)
    (sup : List Nat) : StRes (List Nat) :=
  match fillWalk M vaddr M.rootLevel rootBase mem sup with
  | .panic m => .panic m
  | .err e m => .err e m
  | .ok (s, sup2) m =>
    if TableEntryType.from_pte (m s) 0 = .Invalidated then
      .ok sup2 (writePte m s (Pte.lock (m s)))
    else if TableEntryType.from_pte (m s) 0 = .Unused then
      .ok sup2 (writePte m s (Pte.lock (m s)))
    else if TableEntryType.from_pte (m s) 0 = .Locked then .err .PteLocked m
    else if TableEntryType.from_pte (m s) 0 = .Leaf then .err .MappingExists m
    else .panic m

/-- Translation of `PageTableInner::unlock_4k_leaf` in `page_table.rs`: walk
to the entry and unlock it when it is `Locked`, failing with `PteNotLocked`
otherwise. -/
def unlock_4k_leaf (M : PagingMode) (mem : Mem) (rootBase vaddr : Nat) : StRes Unit :=
  match PageTableInner.walk M mem rootBase vaddr with
  | none => .panic mem
  | some (s, lvl) =>
    if TableEntryType.from_pte (mem s) lvl = .Locked then
      .ok () (writePte mem s (Pte.unlock (mem s)))
    else .err .PteNotLocked mem

/-- Result of `map_range`: the outcome, the memory at return, and the
`num_pages` counter of the `PageTableMapper` at that point (incremented
after each successful leaf lock). -/
structure MapRangeOut where
  res : OpRes Unit
  mem : Mem
  count : Nat

/-- Translation of the locking loop of `PlatformPageTable::map_range` in
`page_table.rs`, tracking the mapper page count. -/
def mapRangeLoop (M : PagingMode) (rootBase addr : Nat) :
    Nat → Nat → Mem → List Nat → Nat → MapRangeOut
  | 0, _, mem, _, k => ⟨.ok (), mem, k⟩
  | c + 1, i, mem, sup, k =>
    match lock_4k_leaf_for_mapping M mem rootBase (addr + i * 4096) sup with
    | .panic m => ⟨.panic, m, k⟩
    | .err e m => ⟨.err e, m, k⟩
    | .ok sup2 m => mapRangeLoop M rootBase addr c (i + 1) m sup2 (k + 1)

/-- Unfolding equation of `mapRangeLoop` for an empty range. -/
theorem mapRangeLoop_zero (M : PagingMode) (rootBase addr i : Nat) (mem : Mem)
    (sup : List Nat) (k : Nat) :
    mapRangeLoop M rootBase addr 0 i mem sup k = ⟨.ok (), mem, k⟩ := rfl

/-- Unfolding equation of `mapRangeLoop` for a nonempty range. -/
theorem mapRangeLoop_succ (M : PagingMode) (rootBase addr c i : Nat) (mem : Mem)
    (sup : List Nat) (k : Nat) :
    mapRangeLoop M rootBase addr (c + 1) i mem sup k =
      match lock_4k_leaf_for_mapping M mem rootBase (addr + i * 4096) sup with
      | .panic m => ⟨.panic, m, k⟩
      | .err e m => ⟨.err e, m, k⟩
      | .ok sup2 m => mapRangeLoop M rootBase addr c (i + 1) m sup2 (k + 1) := rfl

/-- Translation of `PlatformPageTable::map_range` in `page_table.rs`: reject
huge page sizes, then lock each leaf PTE of the range in order. -/
def PlatformPageTable.map_range (M : PagingMode) (mem : Mem) (rootBase addr : Nat)
    (page_size : PageSize) (num_pages : Nat) (sup : List Nat) : MapRangeOut :=
  if page_size.is_huge then ⟨.err (.PageSizeNotSupported page_size), mem, 0⟩
  else mapRangeLoop M rootBase addr num_pages 0 mem sup 0

/-- Translation of the loop of `impl Drop for PageTableMapper` in
`page_table.rs`: unlock each PTE of the reserved range, ignoring errors;
`none` models a panicking walk. -/
def mapperDropLoop (M : PagingMode) (rootBase vaddr : Nat) :
    Nat → Nat → Mem → Option Mem
  | 0, _, mem => some mem
  | c + 1, i, mem =>
    match unlock_4k_leaf M mem rootBase (vaddr + i * 4096) with
    | .panic _ => none
    | .err _ m => mapperDropLoop M rootBase vaddr c (i + 1) m
    | .ok _ m => mapperDropLoop M rootBase vaddr c (i + 1) m

/-- Unfolding equation of `mapperDropLoop` for an empty reservation. -/
theorem mapperDropLoop_zero (M : PagingMode) (rootBase vaddr i : Nat) (mem : Mem) :
    mapperDropLoop M rootBase vaddr 0 i mem = some mem := rfl

/-- Unfolding equation of `mapperDropLoop` for a nonempty reservation. -/
theorem mapperDropLoop_succ (M : PagingMode) (rootBase vaddr c i : Nat) (mem : Mem) :
    mapperDropLoop M rootBase vaddr (c + 1) i mem =
      match unlock_4k_leaf M mem rootBase (vaddr + i * 4096) with
      | .panic _ => none
      | .err _ m => mapperDropLoop M rootBase vaddr c (i + 1) m
      | .ok _ m => mapperDropLoop M rootBase vaddr c (i + 1) m := rfl

/-- Translation of `impl Drop for PageTableMapper` in `page_table.rs`. -/
def PageTableMapper.drop (M : PagingMode) (mem : Mem) (rootBase vaddr num_pages : Nat) :
    Option Mem :=
  mapperDropLoop M rootBase vaddr num_pages 0 mem

/-- Bit decomposition of `Pte.set`. -/
theorem testBit_set (f bits i : Nat) :
    (Pte.set f bits).testBit i
      = ((decide (10 ≤ i) && (f % 2 ^ 44).testBit (i - 10)) || bits.testBit i) := by
  unfold Pte.set
  rw [Nat.testBit_or, Nat.testBit_shiftLeft]

/-- An installed next-level table entry classifies as `Table`. -/
theorem from_pte_set_non_leaf (f lvl : Nat) :
    TableEntryType.from_pte (Pte.set f PteFieldBits.non_leaf) lvl = .Table := by
  have hvalid : Pte.valid (Pte.set f PteFieldBits.non_leaf) = true := by
    unfold Pte.valid PteFieldBits.non_leaf
    rw [testBit_set]
    simp
  have hleaf : Pte.leaf (Pte.set f PteFieldBits.non_leaf) = false := by
    unfold Pte.leaf PteFieldBits.non_leaf
    rw [testBit_set, testBit_set, testBit_set]
    simp
    exact ⟨⟨rfl, rfl⟩, rfl⟩
  unfold TableEntryType.from_pte
  rw [hvalid, hleaf]
  simp

/-- General frame rule for the walker: any memory agreeing with `mem` on
`Table`-classified slots and on the final slot walks identically. -/
theorem walkAux_frame (M : PagingMode) (mem mem' : Mem) (addr : Nat)
    (hpres : ∀ u, TableEntryType.from_pte (mem u) 0 = .Table → mem' u = mem u) :
    ∀ lvl base s l', walkAux M mem addr lvl base = some (s, l') → mem' s = mem s →
      walkAux M mem' addr lvl base = some (s, l') := by
  intro lvl
  induction lvl with
  | zero =>
    intro base s l' h hval
    rw [walkAux_zero] at h
    rw [walkAux_zero]
    split_ifs at h with hc
    simp only [Option.some.injEq, Prod.mk.injEq] at h
    obtain ⟨h1, h2⟩ := h
    subst h1
    subst h2
    rw [hval, if_neg hc]
  | succ l ih =>
    intro base s l' h hval
    rw [walkAux_succ] at h
    rw [walkAux_succ]
    split_ifs at h with hc
    · have hval1 : mem' (slotOf M base (l + 1) addr) = mem (slotOf M base (l + 1) addr) :=
        hpres _ hc
      rw [hval1, if_pos hc]
      exact ih _ s l' h hval
    · simp only [Option.some.injEq, Prod.mk.injEq] at h
      obtain ⟨h1, h2⟩ := h
      subst h1
      subst h2
      rw [hval, if_neg hc]

/-- The fill-in walk writes only at slots that were classified `Unused` when
written; every other slot keeps its value, in every outcome. -/
theorem fillWalk_untouched (M : PagingMode) (addr : Nat) :
    ∀ lvl base mem sup s, TableEntryType.from_pte (mem s) 0 ≠ .Unused →
      (fillWalk M addr lvl base mem sup).memOf s = mem s := by
  intro lvl
  induction lvl with
  | zero =>
    intro base mem sup s _
    rw [fillWalk_zero]
    rfl
  | succ l ih =>
    intro base mem sup s hs
    rw [fillWalk_succ]
    split_ifs with ht hu
    · exact ih _ mem sup s hs
    · cases sup with
      | nil => rfl
      | cons pg rest =>
        dsimp only
        have hne : s ≠ slotOf M base (l + 1) addr := by
          intro he
          rw [he] at hs
          exact hs hu
        have hval : writePte mem (slotOf M base (l + 1) addr)
            (Pte.set (pg / 4096) PteFieldBits.non_leaf) s = mem s :=
          writePte_ne _ _ _ _ hne
        rw [ih (Pte.pfn (Pte.set (pg / 4096) PteFieldBits.non_leaf) * 4096)
          (writePte mem (slotOf M base (l + 1) addr)
            (Pte.set (pg / 4096) PteFieldBits.non_leaf)) rest s
          (by rw [hval]; exact hs)]
        exact hval
    · rfl

/-- The fill-in walk neither creates nor destroys `Locked` classifications,
in every outcome. -/
theorem fillWalk_locked_iff (M : PagingMode) (addr : Nat) :
    ∀ lvl base mem sup s,
      (TableEntryType.from_pte ((fillWalk M addr lvl base mem sup).memOf s) 0 = .Locked ↔
       TableEntryType.from_pte (mem s) 0 = .Locked) := by
  intro lvl
  induction lvl with
  | zero =>
    intro base mem sup s
    rw [fillWalk_zero]
    exact Iff.rfl
  | succ l ih =>
    intro base mem sup s
    rw [fillWalk_succ]
    split_ifs with ht hu
    · exact ih _ mem sup s
    · cases sup with
      | nil => exact Iff.rfl
      | cons pg rest =>
        dsimp only
        rw [ih (Pte.pfn (Pte.set (pg / 4096) PteFieldBits.non_leaf) * 4096)
          (writePte mem (slotOf M base (l + 1) addr)
            (Pte.set (pg / 4096) PteFieldBits.non_leaf)) rest s]
        by_cases hse : s = slotOf M base (l + 1) addr
        · subst hse
          rw [writePte_eq]
          have hu0 : TableEntryType.from_pte (mem (slotOf M base (l + 1) addr)) 0
              = .Unused := hu
          rw [from_pte_set_non_leaf, hu0]
          decide
        · rw [writePte_ne _ _ _ _ hse]
    · exact Iff.rfl

/-- After a successful fill-in walk, overwriting the returned leaf slot with
any non-`Table` value yields a memory in which the plain walk stops exactly
at that slot at the leaf level. -/
theorem fillWalk_ok_walk (M : PagingMode) (addr : Nat) :
    ∀ lvl base mem sup s sup2 m1,
      fillWalk M addr lvl base mem sup = .ok (s, sup2) m1 →
      TableEntryType.from_pte (m1 s) 0 ≠ .Table →
      ∀ v, TableEntryType.from_pte v 0 ≠ .Table →
        walkAux M (writePte m1 s v) addr lvl base = some (s, 0) := by
  intro lvl
  induction lvl with
  | zero =>
    intro base mem sup s sup2 m1 h _ v hv
    rw [fillWalk_zero] at h
    simp only [StRes.ok.injEq, Prod.mk.injEq] at h
    obtain ⟨⟨h1, h2⟩, h3⟩ := h
    subst h1
    subst h3
    rw [walkAux_zero, writePte_eq]
    rw [if_neg hv]
  | succ l ih =>
    intro base mem sup s sup2 m1 h hns v hv
    rw [fillWalk_succ] at h
    split_ifs at h with ht hu
    · have hm1 : m1 (slotOf M base (l + 1) addr) = mem (slotOf M base (l + 1) addr) := by
        have := fillWalk_untouched M addr l
          (Pte.pfn (mem (slotOf M base (l + 1) addr)) * 4096) mem sup
          (slotOf M base (l + 1) addr)
          (by
            have ht0 : TableEntryType.from_pte (mem (slotOf M base (l + 1) addr)) 0
                = .Table := ht
            rw [ht0]
            decide)
        rw [h] at this
        exact this
      have hsne : s ≠ slotOf M base (l + 1) addr := by
        intro he
        rw [he] at hns
        rw [hm1] at hns
        exact hns ht
      rw [walkAux_succ]
      rw [writePte_ne _ _ _ _ (Ne.symm hsne), hm1]
      rw [if_pos ht]
      exact ih _ mem sup s sup2 m1 h hns v hv
    · cases sup with
      | nil =>
        exact absurd h (by simp)
      | cons pg rest =>
        dsimp only at h
        have htab : TableEntryType.from_pte
            (writePte mem (slotOf M base (l + 1) addr)
              (Pte.set (pg / 4096) PteFieldBits.non_leaf)
              (slotOf M base (l + 1) addr)) 0 = .Table := by
          rw [writePte_eq]
          exact from_pte_set_non_leaf _ 0
        have hm1 : m1 (slotOf M base (l + 1) addr)
            = writePte mem (slotOf M base (l + 1) addr)
                (Pte.set (pg / 4096) PteFieldBits.non_leaf)
                (slotOf M base (l + 1) addr) := by
          have := fillWalk_untouched M addr l
            (Pte.pfn (Pte.set (pg / 4096) PteFieldBits.non_leaf) * 4096)
            (writePte mem (slotOf M base (l + 1) addr)
              (Pte.set (pg / 4096) PteFieldBits.non_leaf)) rest
            (slotOf M base (l + 1) addr)
            (by rw [htab]; decide)
          rw [h] at this
          exact this
        have hsne : s ≠ slotOf M base (l + 1) addr := by
          intro he
          rw [he] at hns
          rw [hm1] at hns
          exact hns htab
        rw [walkAux_succ]
        rw [writePte_ne _ _ _ _ (Ne.symm hsne), hm1, writePte_eq]
        rw [if_pos (from_pte_set_non_leaf _ _)]
        exact ih _ _ rest s sup2 m1 h hns v hv

/-- Locking a non-valid PTE yields a `Locked` classification. -/
theorem from_pte_lock_of_not_valid (p lvl : Nat) (hv : Pte.valid p = false) :
    TableEntryType.from_pte (Pte.lock p) lvl = .Locked := by
  apply (from_pte_eq_Locked_iff _ _).mpr
  constructor
  · rw [Pte.valid_lock]
    exact hv
  · exact Pte.locked_lock p

/-- A failed leaf lock neither creates nor destroys `Locked`
classifications. -/
theorem lock_4k_err_locked_iff (M : PagingMode) (mem : Mem) (rootBase vaddr : Nat)
    (sup : List Nat) (e : Error) (m' : Mem)
    (h : lock_4k_leaf_for_mapping M mem rootBase vaddr sup = .err e m') :
    ∀ s, (TableEntryType.from_pte (m' s) 0 = .Locked ↔
          TableEntryType.from_pte (mem s) 0 = .Locked) := by
  intro s
  unfold lock_4k_leaf_for_mapping at h
  cases hf : fillWalk M vaddr M.rootLevel rootBase mem sup with
  | panic m =>
    rw [hf] at h
    exact absurd h (by simp)
  | err e1 m1 =>
    rw [hf] at h
    simp only [StRes.err.injEq] at h
    obtain ⟨he, hm⟩ := h
    subst hm
    have := fillWalk_locked_iff M vaddr M.rootLevel rootBase mem sup s
    rw [hf] at this
    simpa [StRes.memOf] using this
  | ok a m1 =>
    obtain ⟨s0, sup2⟩ := a
    rw [hf] at h
    dsimp only at h
    have hiff := fillWalk_locked_iff M vaddr M.rootLevel rootBase mem sup s
    rw [hf] at hiff
    simp only [StRes.memOf] at hiff
    split_ifs at h with h1 h2 h3 h4 <;>
      (simp only [StRes.err.injEq] at h
       obtain ⟨he, hm⟩ := h
       subst hm
       exact hiff)

/-- A successful leaf lock locks exactly one slot: the walk in the new
memory stops at it at the leaf level, it is `Locked` now and was not before,
and the `Locked` classification of every other slot is unchanged. -/
theorem lock_4k_ok_spec (M : PagingMode) (mem : Mem) (rootBase vaddr : Nat)
    (sup sup2 : List Nat) (m' : Mem)
    (h : lock_4k_leaf_for_mapping M mem rootBase vaddr sup = .ok sup2 m') :
    ∃ s0, PageTableInner.walk M m' rootBase vaddr = some (s0, 0) ∧
      TableEntryType.from_pte (m' s0) 0 = .Locked ∧
      TableEntryType.from_pte (mem s0) 0 ≠ .Locked ∧
      (∀ s, s ≠ s0 → (TableEntryType.from_pte (m' s) 0 = .Locked ↔
        TableEntryType.from_pte (mem s) 0 = .Locked)) := by
  unfold lock_4k_leaf_for_mapping at h
  cases hf : fillWalk M vaddr M.rootLevel rootBase mem sup with
  | panic m =>
    rw [hf] at h
    exact absurd h (by simp)
  | err e1 m1 =>
    rw [hf] at h
    exact absurd h (by simp)
  | ok a m1 =>
    obtain ⟨s0, sup2'⟩ := a
    rw [hf] at h
    dsimp only at h
    have hiff : ∀ u, (TableEntryType.from_pte (m1 u) 0 = .Locked ↔
        TableEntryType.from_pte (mem u) 0 = .Locked) := by
      intro u
      have := fillWalk_locked_iff M vaddr M.rootLevel rootBase mem sup u
      rw [hf] at this
      simpa [StRes.memOf] using this
    split_ifs at h with h1 h2 h3 h4
    · simp only [StRes.ok.injEq] at h
      obtain ⟨hsup, hm⟩ := h
      subst hm
      have hval : Pte.valid (m1 s0) = false :=
        ((from_pte_eq_Invalidated_iff _ 0).mp h1).1
      have hlockcls : TableEntryType.from_pte (Pte.lock (m1 s0)) 0 = .Locked :=
        from_pte_lock_of_not_valid _ 0 hval
      refine ⟨s0, ?_, ?_, ?_, ?_⟩
      · unfold PageTableInner.walk
        apply fillWalk_ok_walk M vaddr M.rootLevel rootBase mem sup s0 sup2' m1 hf
        · rw [h1]
          decide
        · rw [hlockcls]
          decide
      · rw [writePte_eq]
        exact hlockcls
      · intro hcontra
        have := (hiff s0).mpr hcontra
        rw [h1] at this
        exact absurd this (by decide)
      · intro s hs
        rw [writePte_ne _ _ _ _ hs]
        exact hiff s
    · simp only [StRes.ok.injEq] at h
      obtain ⟨hsup, hm⟩ := h
      subst hm
      have hval : Pte.valid (m1 s0) = false :=
        ((from_pte_eq_Unused_iff _ 0).mp h2).1
      have hlockcls : TableEntryType.from_pte (Pte.lock (m1 s0)) 0 = .Locked :=
        from_pte_lock_of_not_valid _ 0 hval
      refine ⟨s0, ?_, ?_, ?_, ?_⟩
      · unfold PageTableInner.walk
        apply fillWalk_ok_walk M vaddr M.rootLevel rootBase mem sup s0 sup2' m1 hf
        · rw [h2]
          decide
        · rw [hlockcls]
          decide
      · rw [writePte_eq]
        exact hlockcls
      · intro hcontra
        have := (hiff s0).mpr hcontra
        rw [h2] at this
        exact absurd this (by decide)
      · intro s hs
        rw [writePte_ne _ _ _ _ hs]
        exact hiff s

/-- The leaf lock leaves every slot that is neither `Unused` nor
`Invalidated` untouched, in every outcome. -/
theorem lock_4k_untouched (M : PagingMode) (mem : Mem) (rootBase vaddr : Nat)
    (sup : List Nat) :
    ∀ s, TableEntryType.from_pte (mem s) 0 ≠ .Unused →
      TableEntryType.from_pte (mem s) 0 ≠ .Invalidated →
      (lock_4k_leaf_for_mapping M mem rootBase vaddr sup).memOf s = mem s := by
  intro s hsu hsi
  have hm1base := fillWalk_untouched M vaddr M.rootLevel rootBase mem sup s hsu
  unfold lock_4k_leaf_for_mapping
  cases hf : fillWalk M vaddr M.rootLevel rootBase mem sup with
  | panic m =>
    rw [hf] at hm1base
    simpa [StRes.memOf] using hm1base
  | err e m =>
    rw [hf] at hm1base
    simpa [StRes.memOf] using hm1base
  | ok a m1 =>
    obtain ⟨s0, sup2⟩ := a
    rw [hf] at hm1base
    simp only [StRes.memOf] at hm1base
    dsimp only
    split_ifs with h1 h2 h3 h4
    · have hne : s ≠ s0 := by
        intro he
        rw [he] at hm1base
        rw [he] at hsi
        rw [hm1base] at h1
        exact hsi h1
      simp only [StRes.memOf]
      rw [writePte_ne _ _ _ _ hne]
      exact hm1base
    · have hne : s ≠ s0 := by
        intro he
        rw [he] at hm1base
        rw [he] at hsu
        rw [hm1base] at h2
        exact hsu h2
      simp only [StRes.memOf]
      rw [writePte_ne _ _ _ _ hne]
      exact hm1base
    · exact hm1base
    · exact hm1base
    · exact hm1base

/-- C4: during `map_range`, once the walk (filling intermediates) reaches
the target leaf PTE, an `Unused` or `Invalidated` PTE is locked in place (an
`Invalidated` PTE keeping its prior PFN), a `Locked` PTE fails the call with
`PteLocked`, and a live `Leaf` PTE fails it with `MappingExists`, matching
the arm order of `lock_4k_leaf_for_mapping`. -/
theorem C4_lock_leaf_states (M : PagingMode) (mem : Mem) (rootBase vaddr : Nat)
    (sup sup2 : List Nat) (s : Nat) (m1 : Mem)
    (hfill : fillWalk M vaddr M.rootLevel rootBase mem sup = .ok (s, sup2) m1) :
    (TableEntryType.from_pte (m1 s) 0 = .Unused →
      lock_4k_leaf_for_mapping M mem rootBase vaddr sup
        = .ok sup2 (writePte m1 s (Pte.lock (m1 s))) ∧
      TableEntryType.from_pte (Pte.lock (m1 s)) 0 = .Locked ∧
      Pte.pfn (Pte.lock (m1 s)) = Pte.pfn (m1 s)) ∧
    (TableEntryType.from_pte (m1 s) 0 = .Invalidated →
      lock_4k_leaf_for_mapping M mem rootBase vaddr sup
        = .ok sup2 (writePte m1 s (Pte.lock (m1 s))) ∧
      TableEntryType.from_pte (Pte.lock (m1 s)) 0 = .Locked ∧
      Pte.pfn (Pte.lock (m1 s)) = Pte.pfn (m1 s)) ∧
    (TableEntryType.from_pte (m1 s) 0 = .Locked →
      lock_4k_leaf_for_mapping M mem rootBase vaddr sup = .err .PteLocked m1) ∧
    (TableEntryType.from_pte (m1 s) 0 = .Leaf →
      lock_4k_leaf_for_mapping M mem rootBase vaddr sup = .err .MappingExists m1) := by
  unfold lock_4k_leaf_for_mapping
  rw [hfill]
  dsimp only
  refine ⟨fun hu => ?_, fun hi => ?_, fun hl => ?_, fun hlf => ?_⟩
  · rw [if_neg (by rw [hu]; decide), if_pos hu]
    exact ⟨rfl, from_pte_lock_of_not_valid _ 0 ((from_pte_eq_Unused_iff _ 0).mp hu).1,
      Pte.pfn_lock _⟩
  · rw [if_pos hi]
    exact ⟨rfl, from_pte_lock_of_not_valid _ 0 ((from_pte_eq_Invalidated_iff _ 0).mp hi).1,
      Pte.pfn_lock _⟩
  · rw [if_neg (by rw [hl]; decide), if_neg (by rw [hl]; decide), if_pos hl]
  · rw [if_neg (by rw [hlf]; decide), if_neg (by rw [hlf]; decide),
      if_neg (by rw [hlf]; decide), if_pos hlf]

/-- A one-level paging mode for small concrete examples. -/
def tinyMode : PagingMode where
  numLevels := 1
  addr_shift := fun _ => 12
  addr_width := fun _ => 9
  leaf_page_size := fun _ => .Size4k
  root_table_pages := 1
  top_level_align := 4096

/-- All-zero physical memory: every PTE slot reads `Unused`. -/
def zeroMem : Mem := fun _ => 0

/-- C4 witness: locking the unused leaf PTE of a one-level table succeeds
and produces a `Locked` entry. -/
theorem C4_lock_leaf_states_witness :
    lock_4k_leaf_for_mapping tinyMode zeroMem 0x80000000 0 []
      = .ok [] (writePte zeroMem 0x80000000 (Pte.lock (zeroMem 0x80000000))) ∧
    TableEntryType.from_pte (Pte.lock (zeroMem 0x80000000)) 0 = .Locked ∧
    Pte.pfn (Pte.lock (zeroMem 0x80000000)) = Pte.pfn (zeroMem 0x80000000) :=
  (C4_lock_leaf_states tinyMode zeroMem 0x80000000 0 [] [] 0x80000000 zeroMem rfl).1
    (by decide)

/-- Master induction for a failed `map_range` locking loop: on an `.err`
return, the mapper count grew by the length of a duplicate-free list of
slots, each of which is reached by the walk of the corresponding prefix
address and is `Locked` in the final memory; a slot is `Locked` in the final
memory exactly when it was `Locked` before or is one of those slots; those
slots were not `Locked` before; and every slot that was neither `Unused` nor
`Invalidated` kept its exact value. -/
theorem mapRangeLoop_err_spec (M : PagingMode) (rootBase addr : Nat) :
    ∀ c i mem sup k e memF kF,
      mapRangeLoop M rootBase addr c i mem sup k = ⟨.err e, memF, kF⟩ →
      ∃ sl : List Nat,
        kF = k + sl.length ∧
        sl.Nodup ∧
        (∀ idx, (hidx : idx < sl.length) →
          PageTableInner.walk M memF rootBase (addr + (i + idx) * 4096)
            = some (sl.get ⟨idx, hidx⟩, 0) ∧
          TableEntryType.from_pte (memF (sl.get ⟨idx, hidx⟩)) 0 = .Locked) ∧
        (∀ s, TableEntryType.from_pte (memF s) 0 = .Locked ↔
          (TableEntryType.from_pte (mem s) 0 = .Locked ∨ s ∈ sl)) ∧
        (∀ s, s ∈ sl → TableEntryType.from_pte (mem s) 0 ≠ .Locked) ∧
        (∀ s, TableEntryType.from_pte (mem s) 0 ≠ .Unused →
          TableEntryType.from_pte (mem s) 0 ≠ .Invalidated → memF s = mem s) := by
  intro c
  induction c with
  | zero =>
    intro i mem sup k e memF kF h
    rw [mapRangeLoop_zero] at h
    simp at h
  | succ c ih =>
    intro i mem sup k e memF kF h
    rw [mapRangeLoop_succ] at h
    cases hl : lock_4k_leaf_for_mapping M mem rootBase (addr + i * 4096) sup with
    | panic m =>
      rw [hl] at h
      simp at h
    | err e1 m =>
      rw [hl] at h
      simp only [MapRangeOut.mk.injEq] at h
      obtain ⟨hres, hmem, hk⟩ := h
      simp only [OpRes.err.injEq] at hres
      subst hres
      subst hmem
      subst hk
      refine ⟨[], by simp, List.nodup_nil, ?_, ?_, ?_, ?_⟩
      · intro idx hidx
        exact absurd hidx (by simp)
      · intro s
        rw [lock_4k_err_locked_iff M mem rootBase (addr + i * 4096) sup _ _ hl s]
        simp
      · intro s hs
        exact absurd hs (by simp)
      · intro s hsu hsi
        have := lock_4k_untouched M mem rootBase (addr + i * 4096) sup s hsu hsi
        rw [hl] at this
        simpa [StRes.memOf] using this
    | ok sup2 m =>
      rw [hl] at h
      dsimp only at h
      obtain ⟨sl', hkF, hnodup, hwalks, hiff, hfresh, huntouched⟩ :=
        ih (i + 1) m sup2 (k + 1) e memF kF h
      obtain ⟨s0, hw0, hm0locked, hmem0notlocked, hothers⟩ :=
        lock_4k_ok_spec M mem rootBase (addr + i * 4096) sup sup2 m hl
      have hmemFs0 : memF s0 = m s0 :=
        huntouched s0 (by rw [hm0locked]; decide) (by rw [hm0locked]; decide)
      refine ⟨s0 :: sl', by simp [hkF]; omega, ?_, ?_, ?_, ?_, ?_⟩
      · refine List.nodup_cons.mpr ⟨?_, hnodup⟩
        intro hmem'
        exact hfresh s0 hmem' hm0locked
      · intro idx hidx
        cases idx with
        | zero =>
          have hpres : ∀ u, TableEntryType.from_pte (m u) 0 = .Table → memF u = m u :=
            fun u hu => huntouched u (by rw [hu]; decide) (by rw [hu]; decide)
          constructor
          · unfold PageTableInner.walk at hw0 ⊢
            simp only [Nat.add_zero]
            exact walkAux_frame M m memF (addr + i * 4096) hpres M.rootLevel rootBase
              s0 0 hw0 hmemFs0
          · show TableEntryType.from_pte (memF s0) 0 = .Locked
            rw [hmemFs0]
            exact hm0locked
        | succ idx =>
          have hidx' : idx < sl'.length := Nat.lt_of_succ_lt_succ hidx
          have := hwalks idx hidx'
          have harith : i + (idx + 1) = i + 1 + idx := by omega
          rw [harith]
          exact this
      · intro s
        rw [hiff s]
        by_cases hs : s = s0
        · subst hs
          simp [hm0locked, List.mem_cons]
        · rw [hothers s hs]
          simp only [List.mem_cons]
          constructor
          · rintro (hx | hx)
            · exact Or.inl hx
            · exact Or.inr (Or.inr hx)
          · rintro (hx | hx | hx)
            · exact Or.inl hx
            · exact absurd hx hs
            · exact Or.inr hx
      · intro s hsmem
        rcases List.mem_cons.mp hsmem with hs | hs
        · subst hs
          exact hmem0notlocked
        · intro hcontra
          by_cases hss0 : s = s0
          · subst hss0
            exact hfresh s hs hm0locked
          · exact hfresh s hs ((hothers s hss0).mpr hcontra)
      · intro s hsu hsi
        have hstep := lock_4k_untouched M mem rootBase (addr + i * 4096) sup s hsu hsi
        rw [hl] at hstep
        simp only [StRes.memOf] at hstep
        have hrest : memF s = m s :=
          huntouched s (by rw [hstep]; exact hsu) (by rw [hstep]; exact hsi)
        rw [hrest, hstep]

/-- Dropping a mapper whose reserved slots are exactly the `Locked` slots of
memory unlocks them all: the drop loop succeeds and afterwards no slot
anywhere is `Locked`. -/
theorem mapperDropLoop_clears (M : PagingMode) (rootBase vaddr : Nat) :
    ∀ sl : List Nat, ∀ i, ∀ mem : Mem,
      sl.Nodup →
      (∀ idx, (hidx : idx < sl.length) →
        PageTableInner.walk M mem rootBase (vaddr + (i + idx) * 4096)
          = some (sl.get ⟨idx, hidx⟩, 0) ∧
        TableEntryType.from_pte (mem (sl.get ⟨idx, hidx⟩)) 0 = .Locked) →
      (∀ s, TableEntryType.from_pte (mem s) 0 = .Locked → s ∈ sl) →
      ∃ memD, mapperDropLoop M rootBase vaddr sl.length i mem = some memD ∧
        (∀ s, TableEntryType.from_pte (memD s) 0 ≠ .Locked) := by
  intro sl
  induction sl with
  | nil =>
    intro i mem _ _ hcov
    refine ⟨mem, mapperDropLoop_zero M rootBase vaddr i mem, ?_⟩
    intro s hcontra
    exact absurd (hcov s hcontra) (by simp)
  | cons w sl' ih =>
    intro i mem hnodup hwalks hcov
    have hw := hwalks 0 (by simp)
    simp only [Nat.add_zero] at hw
    have hwalk : PageTableInner.walk M mem rootBase (vaddr + i * 4096) = some (w, 0) :=
      hw.1
    have hlocked : TableEntryType.from_pte (mem w) 0 = .Locked := hw.2
    have hunlock : unlock_4k_leaf M mem rootBase (vaddr + i * 4096)
        = .ok () (writePte mem w (Pte.unlock (mem w))) := by
      unfold unlock_4k_leaf
      rw [hwalk]
      dsimp only
      rw [if_pos hlocked]
    have hwnot : w ∉ sl' := (List.nodup_cons.mp hnodup).1
    have hnodup' : sl'.Nodup := (List.nodup_cons.mp hnodup).2
    have hnewlocked : TableEntryType.from_pte
        (writePte mem w (Pte.unlock (mem w)) w) 0 ≠ .Locked := by
      rw [writePte_eq]
      intro hcontra
      have := ((from_pte_eq_Locked_iff _ 0).mp hcontra).2
      rw [Pte.locked_unlock] at this
      cases this
    have hwalks' : ∀ idx, (hidx : idx < sl'.length) →
        PageTableInner.walk M (writePte mem w (Pte.unlock (mem w))) rootBase
          (vaddr + (i + 1 + idx) * 4096) = some (sl'.get ⟨idx, hidx⟩, 0) ∧
        TableEntryType.from_pte
          (writePte mem w (Pte.unlock (mem w)) (sl'.get ⟨idx, hidx⟩)) 0 = .Locked := by
      intro idx hidx
      have horig := hwalks (idx + 1) (by simpa using hidx)
      have harith : i + (idx + 1) = i + 1 + idx := by omega
      rw [harith] at horig
      obtain ⟨how, hol⟩ := horig
      have hne : w ≠ sl'.get ⟨idx, hidx⟩ := by
        intro he
        apply hwnot
        rw [he]
        exact List.get_mem sl' idx hidx
      have hnt : TableEntryType.from_pte (mem w) 0 ≠ .Table := by
        rw [hlocked]
        decide
      constructor
      · unfold PageTableInner.walk at how ⊢
        exact walkAux_write_frame M mem (vaddr + (i + 1 + idx) * 4096) w
          (Pte.unlock (mem w)) hnt M.rootLevel rootBase _ 0 how hne
      · rw [writePte_ne _ _ _ _ (Ne.symm hne)]
        exact hol
    have hcov' : ∀ s, TableEntryType.from_pte
        (writePte mem w (Pte.unlock (mem w)) s) 0 = .Locked → s ∈ sl' := by
      intro s hs
      by_cases hsw : s = w
      · subst hsw
        exact absurd hs hnewlocked
      · rw [writePte_ne _ _ _ _ hsw] at hs
        have := hcov s hs
        rcases List.mem_cons.mp this with hx | hx
        · exact absurd hx hsw
        · exact hx
    obtain ⟨memD, hrun, hclear⟩ :=
      ih (i + 1) (writePte mem w (Pte.unlock (mem w))) hnodup' hwalks' hcov'
    refine ⟨memD, ?_, hclear⟩
    simp only [List.length_cons]
    rw [mapperDropLoop_succ, hunlock]
    exact hrun

/-- Unfolding of `map_range` for a non-huge page size. -/
theorem map_range_eq (M : PagingMode) (mem : Mem) (rootBase addr : Nat)
    (page_size : PageSize) (num_pages : Nat) (sup : List Nat)
    (hps : page_size.is_huge = false) :
    PlatformPageTable.map_range M mem rootBase addr page_size num_pages sup
      = mapRangeLoop M rootBase addr num_pages 0 mem sup 0 := by
  unfold PlatformPageTable.map_range
  simp [hps]

/-- C5: when `map_range` over a range of 4 KiB pages fails partway (any
error, such as `InsufficientPtePages` from an exhausted supplier), starting
from a hierarchy with no locked PTE anywhere, then at the moment of failure
exactly the successfully processed prefix of leaf PTEs is locked — the
mapper count equals the length of a duplicate-free list of slots, the walk
of the i-th prefix address stops at the i-th slot which is `Locked`, and a
slot is `Locked` exactly when it is one of them — and after the associated
mapper is dropped the drop loop succeeds and zero PTEs (in the range or
anywhere else) remain locked. -/
theorem C5_map_range_rollback (M : PagingMode) (mem : Mem) (rootBase addr : Nat)
    (page_size : PageSize) (num_pages : Nat) (sup : List Nat) (e : Error) (memF : Mem)
    (kF : Nat) (hps : page_size.is_huge = false)
    (hinit : ∀ s, TableEntryType.from_pte (mem s) 0 ≠ .Locked)
    (hrun : PlatformPageTable.map_range M mem rootBase addr page_size num_pages sup
      = ⟨.err e, memF, kF⟩) :
    ∃ sl : List Nat,
      kF = sl.length ∧ sl.Nodup ∧
      (∀ idx, (hidx : idx < sl.length) →
        PageTableInner.walk M memF rootBase (addr + idx * 4096)
          = some (sl.get ⟨idx, hidx⟩, 0) ∧
        TableEntryType.from_pte (memF (sl.get ⟨idx, hidx⟩)) 0 = .Locked) ∧
      (∀ s, TableEntryType.from_pte (memF s) 0 = .Locked ↔ s ∈ sl) ∧
      ∃ memD, PageTableMapper.drop M memF rootBase addr kF = some memD ∧
        (∀ s, TableEntryType.from_pte (memD s) 0 ≠ .Locked) := by
  rw [map_range_eq M mem rootBase addr page_size num_pages sup hps] at hrun
  obtain ⟨sl, hkF, hnodup, hwalks, hiff, hfresh, huntouched⟩ :=
    mapRangeLoop_err_spec M rootBase addr num_pages 0 mem sup 0 e memF kF hrun
  have hkF' : kF = sl.length := by omega
  have hiff' : ∀ s, TableEntryType.from_pte (memF s) 0 = .Locked ↔ s ∈ sl := by
    intro s
    rw [hiff s]
    simp [hinit s]
  have hwalks' : ∀ idx, (hidx : idx < sl.length) →
      PageTableInner.walk M memF rootBase (addr + idx * 4096)
        = some (sl.get ⟨idx, hidx⟩, 0) ∧
      TableEntryType.from_pte (memF (sl.get ⟨idx, hidx⟩)) 0 = .Locked := by
    intro idx hidx
    have := hwalks idx hidx
    simpa [Nat.zero_add] using this
  refine ⟨sl, hkF', hnodup, hwalks', hiff', ?_⟩
  unfold PageTableMapper.drop
  rw [hkF']
  exact mapperDropLoop_clears M rootBase addr sl 0 memF hnodup
    (fun idx hidx => by simpa [Nat.zero_add] using hwalks' idx hidx)
    (fun s hs => (hiff' s).mp hs)

/-- A two-level paging mode for concrete examples that exercise the PTE
supplier. -/
def twoMode : PagingMode where
  numLevels := 2
  addr_shift := fun lvl => if lvl = 0 then 12 else 21
  addr_width := fun _ => 9
  leaf_page_size := fun lvl => if lvl = 0 then .Size4k else .Size2M
  root_table_pages := 1
  top_level_align := 4096

/-- C5 witness: mapping two pages across a 2 MiB boundary with a one-page
supplier locks the first leaf PTE, fails with `InsufficientPtePages` on the
second, and dropping the mapper leaves that PTE unlocked. -/
theorem C5_map_range_rollback_witness :
    (PlatformPageTable.map_range twoMode zeroMem 0x80000000 0x1FF000 .Size4k 2
      [0x81000000]).res = .err .InsufficientPtePages ∧
    (PlatformPageTable.map_range twoMode zeroMem 0x80000000 0x1FF000 .Size4k 2
      [0x81000000]).count = 1 ∧
    TableEntryType.from_pte
      ((PlatformPageTable.map_range twoMode zeroMem 0x80000000 0x1FF000 .Size4k 2
        [0x81000000]).mem 0x81000FF8) 0 = .Locked ∧
    ((PageTableMapper.drop twoMode
        (PlatformPageTable.map_range twoMode zeroMem 0x80000000 0x1FF000 .Size4k 2
          [0x81000000]).mem
        0x80000000 0x1FF000
        (PlatformPageTable.map_range twoMode zeroMem 0x80000000 0x1FF000 .Size4k 2
          [0x81000000]).count).map
      (fun m => TableEntryType.from_pte (m 0x81000FF8) 0)) ≠ some .Locked := by
  obtain ⟨sl, hkF, hnodup, hwalks, hiff, memD, hdrop, hnolock⟩ :=
    C5_map_range_rollback twoMode zeroMem 0x80000000 0x1FF000 .Size4k 2 [0x81000000]
      .InsufficientPtePages
      (PlatformPageTable.map_range twoMode zeroMem 0x80000000 0x1FF000 .Size4k 2
        [0x81000000]).mem
      (PlatformPageTable.map_range twoMode zeroMem 0x80000000 0x1FF000 .Size4k 2
        [0x81000000]).count
      rfl (fun _ => (by decide : TableEntryType.from_pte 0 0 ≠ TableEntryType.Locked)) rfl
  refine ⟨rfl, rfl, rfl, ?_⟩
  intro hcontra
  rw [hdrop] at hcontra
  simp at hcontra
  exact hnolock _ hcontra

/-- Translation of `PageTableInner::map_4k_leaf` in `page_table.rs`: walk to
the entry for `vaddr`; a `Locked` entry at the leaf level is set to a valid
leaf for `paddr` with the given permissions plus the User bit
(`LockedPte::map_leaf`, whose alignment `assert` is the panic case);
`Unused` and `Invalidated` yield `PteNotLocked`, `Leaf` yields
`MappingExists`, `Table` is unreachable. -/
def PageTableInner.map_4k_leaf (M : PagingMode) (mem : Mem) (rootBase vaddr paddr : Nat)
    (perms : PteLeafPerms) : StRes Unit :=
  match PageTableInner.walk M mem rootBase vaddr with
  | none => .panic mem
  | some (s, lvl) =>
    if TableEntryType.from_pte (mem s) lvl = .Locked then
      if lvl ≠ 0 then .err (.PageSizeNotSupported (M.leaf_page_size lvl)) mem
      else if paddr % (M.leaf_page_size lvl).bytes ≠ 0 then .panic mem
      else .ok () (writePte mem s (Pte.set (paddr / 4096)
        (PteFieldBits.leaf_with_perms perms ||| PteFieldBit.User)))
    else if TableEntryType.from_pte (mem s) lvl = .Unused then .err .PteNotLocked mem
    else if TableEntryType.from_pte (mem s) lvl = .Invalidated then .err .PteNotLocked mem
    else if TableEntryType.from_pte (mem s) lvl = .Leaf then .err .MappingExists mem
    else .panic mem

/-- Translation of `PageTableMapper::map_page` in `page_table.rs`: reject
huge pages, reject addresses outside the reservation, then install the
mapping via `map_4k_leaf` with the hardcoded `PteLeafPerms::RWX` — the
interface offers the caller no permission parameter. -/
def PageTableMapper.map_page (M : PagingMode) (mem : Mem) (rootBase : Nat)
    (mapperVaddr mapperPages : Nat) (vaddr paddr : Nat) (page_size : PageSize) :
    StRes Unit :=
  if page_size.is_huge then .err (.PageSizeNotSupported page_size) mem
  else if vaddr < mapperVaddr ∨ mapperVaddr + mapperPages * 4096 ≤ vaddr then
    .err .OutOfMapRange mem
  else PageTableInner.map_4k_leaf M mem rootBase vaddr paddr .RWX

/-- The leaf status written by `map_leaf` for RWX permissions has the valid,
read, write, execute, user, accessed and dirty bits and nothing above
bit 9. -/
theorem testBit_rwx_user (f : Nat) :
    Pte.valid (Pte.set f (PteFieldBits.leaf_with_perms .RWX ||| PteFieldBit.User))
      = true ∧
    (Pte.set f (PteFieldBits.leaf_with_perms .RWX ||| PteFieldBit.User)).testBit 1
      = true ∧
    (Pte.set f (PteFieldBits.leaf_with_perms .RWX ||| PteFieldBit.User)).testBit 2
      = true ∧
    (Pte.set f (PteFieldBits.leaf_with_perms .RWX ||| PteFieldBit.User)).testBit 3
      = true ∧
    (Pte.set f (PteFieldBits.leaf_with_perms .RWX ||| PteFieldBit.User)).testBit 4
      = true ∧
    Pte.leaf (Pte.set f (PteFieldBits.leaf_with_perms .RWX ||| PteFieldBit.User))
      = true := by
  refine ⟨?_, ?_, ?_, ?_, ?_, ?_⟩
  · unfold Pte.valid
    rw [testBit_set]
    simp
    decide
  · rw [testBit_set]
    simp
    decide
  · rw [testBit_set]
    simp
    decide
  · rw [testBit_set]
    simp
    decide
  · rw [testBit_set]
    simp
    decide
  · unfold Pte.leaf
    rw [testBit_set, testBit_set, testBit_set]
    simp
    decide

/-- C10: every mapping successfully installed through `Mapper::map_page`
writes the leaf PTE with the read, write and execute permissions and the
User bit set, for every page argument and every address in the reservation:
the interface hardcodes `PteLeafPerms::RWX` and sets the User bit, offering
the caller no way to choose other permissions. The walked slot must have
been `Locked`, it becomes a valid `Leaf`, and no other slot changes. -/
theorem C10_map_page_rwxu (M : PagingMode) (mem : Mem) (rootBase mapperVaddr
    mapperPages vaddr paddr : Nat) (page_size : PageSize) (s : Nat) (m' : Mem)
    (hwalk : PageTableInner.walk M mem rootBase vaddr = some (s, 0))
    (hrun : PageTableMapper.map_page M mem rootBase mapperVaddr mapperPages vaddr paddr
      page_size = .ok () m') :
    TableEntryType.from_pte (mem s) 0 = .Locked ∧
    m' = writePte mem s (Pte.set (paddr / 4096)
      (PteFieldBits.leaf_with_perms .RWX ||| PteFieldBit.User)) ∧
    Pte.valid (m' s) = true ∧
    (m' s).testBit 1 = true ∧
    (m' s).testBit 2 = true ∧
    (m' s).testBit 3 = true ∧
    (m' s).testBit 4 = true ∧
    TableEntryType.from_pte (m' s) 0 = .Leaf ∧
    (∀ u, u ≠ s → m' u = mem u) := by
  unfold PageTableMapper.map_page at hrun
  split_ifs at hrun with h1 h2
  unfold PageTableInner.map_4k_leaf at hrun
  rw [hwalk] at hrun
  dsimp only at hrun
  split_ifs at hrun with hlk hlvl halign
  simp only [StRes.ok.injEq, true_and] at hrun
  subst hrun
  obtain ⟨hv, hb1, hb2, hb3, hb4, hlf⟩ := testBit_rwx_user (paddr / 4096)
  have hms : writePte mem s (Pte.set (paddr / 4096)
      (PteFieldBits.leaf_with_perms .RWX ||| PteFieldBit.User)) s
      = Pte.set (paddr / 4096) (PteFieldBits.leaf_with_perms .RWX ||| PteFieldBit.User) :=
    writePte_eq _ _ _
  refine ⟨hlk, rfl, ?_, ?_, ?_, ?_, ?_, ?_, ?_⟩
  · rw [hms]
    exact hv
  · rw [hms]
    exact hb1
  · rw [hms]
    exact hb2
  · rw [hms]
    exact hb3
  · rw [hms]
    exact hb4
  · rw [hms]
    exact (from_pte_eq_Leaf_iff _ 0).mpr ⟨hv, hlf⟩
  · intro u hu
    exact writePte_ne _ _ _ _ hu

/-- A one-level table whose first PTE is locked for mapping. -/
def lockMem : Mem := fun s => if s = 0x80000000 then 256 else 0

/-- C10 witness: mapping frame 0x90000000 through the mapper writes a valid
user-RWX leaf at the locked slot. -/
theorem C10_map_page_rwxu_witness :
    Pte.valid ((writePte lockMem 0x80000000 (Pte.set (0x90000000 / 4096)
      (PteFieldBits.leaf_with_perms .RWX ||| PteFieldBit.User))) 0x80000000) = true ∧
    ((writePte lockMem 0x80000000 (Pte.set (0x90000000 / 4096)
      (PteFieldBits.leaf_with_perms .RWX ||| PteFieldBit.User))) 0x80000000).testBit 1
      = true ∧
    ((writePte lockMem 0x80000000 (Pte.set (0x90000000 / 4096)
      (PteFieldBits.leaf_with_perms .RWX ||| PteFieldBit.User))) 0x80000000).testBit 4
      = true ∧
    TableEntryType.from_pte ((writePte lockMem 0x80000000 (Pte.set (0x90000000 / 4096)
      (PteFieldBits.leaf_with_perms .RWX ||| PteFieldBit.User))) 0x80000000) 0
      = .Leaf := by
  obtain ⟨hlk, hm, hv, hb1, hb2, hb3, hb4, hleaf, hother⟩ :=
    C10_map_page_rwxu tinyMode lockMem 0x80000000 0 1 0 0x90000000 .Size4k 0x80000000
      (writePte lockMem 0x80000000 (Pte.set (0x90000000 / 4096)
        (PteFieldBits.leaf_with_perms .RWX ||| PteFieldBit.User)))
      rfl rfl
  exact ⟨hv, hb1, hb4, hleaf⟩

/-- Helper: concatenate the per-index frame lists of a table scan in index
order, propagating a panic (`none`) from any entry. -/
def collectIdx (f : Nat → Option (List Nat)) : List Nat → Option (List Nat)
  | [] => some []
  | i :: is =>
    match f i, collectIdx f is with
    | some x, some r => some (x ++ r)
    | _, _ => none

/-- Translation of `PageTable::release_pages` in `page_table.rs`, recursing
on the level: for every index of the table, a `Table` entry first releases
the pointed-to subtree recursively and then the table frame itself (at the
leaf level the `next().unwrap()` of `PageTablePte::table` panics); `Leaf`
and `Invalidated` entries release the mapped or remembered frame (the
`PageAddr::from_pfn(..).unwrap()` alignment panic is the `none` branch);
`Unused` and `Locked` entries release nothing. -/
def releaseTable (M : PagingMode) (mem : Mem) : Nat → Nat → Option (List Nat)
  | 0, base =>
    collectIdx (fun idx =>
      match TableEntryType.from_pte (mem (PageTable.entry_addr base idx)) 0 with
      | .Table => none
      | .Leaf =>
        if Pte.pfn (mem (PageTable.entry_addr base idx)) * 4096
            % (M.leaf_page_size 0).bytes = 0 then
          some [Pte.pfn (mem (PageTable.entry_addr base idx)) * 4096]
        else none
      | .Invalidated =>
        if Pte.pfn (mem (PageTable.entry_addr base idx)) * 4096
            % (M.leaf_page_size 0).bytes = 0 then
          some [Pte.pfn (mem (PageTable.entry_addr base idx)) * 4096]
        else none
      | _ => some [])
      (List.range (2 ^ M.addr_width 0))
  | l + 1, base =>
    collectIdx (fun idx =>
      match TableEntryType.from_pte (mem (PageTable.entry_addr base idx)) (l + 1) with
      | .Table =>
        match releaseTable M mem l
            (Pte.pfn (mem (PageTable.entry_addr base idx)) * 4096) with
        | some sub =>
          some (sub ++ [Pte.pfn (mem (PageTable.entry_addr base idx)) * 4096])
        | none => none
      | .Leaf =>
        if Pte.pfn (mem (PageTable.entry_addr base idx)) * 4096
            % (M.leaf_page_size (l + 1)).bytes = 0 then
          some [Pte.pfn (mem (PageTable.entry_addr base idx)) * 4096]
        else none
      | .Invalidated =>
        if Pte.pfn (mem (PageTable.entry_addr base idx)) * 4096
            % (M.leaf_page_size (l + 1)).bytes = 0 then
          some [Pte.pfn (mem (PageTable.entry_addr base idx)) * 4096]
        else none
      | _ => some [])
      (List.range (2 ^ M.addr_width (l + 1)))

/-- Spec-side collector for P5: every Leaf PFN and every Invalidated PFN of
the subtree, in traversal order, with the same panic conditions as the
release walk. -/
def dataFrames (M : PagingMode) (mem : Mem) : Nat → Nat → Option (List Nat)
  | 0, base =>
    collectIdx (fun idx =>
      match TableEntryType.from_pte (mem (PageTable.entry_addr base idx)) 0 with
      | .Table => none
      | .Leaf =>
        if Pte.pfn (mem (PageTable.entry_addr base idx)) * 4096
            % (M.leaf_page_size 0).bytes = 0 then
          some [Pte.pfn (mem (PageTable.entry_addr base idx)) * 4096]
        else none
      | .Invalidated =>
        if Pte.pfn (mem (PageTable.entry_addr base idx)) * 4096
            % (M.leaf_page_size 0).bytes = 0 then
          some [Pte.pfn (mem (PageTable.entry_addr base idx)) * 4096]
        else none
      | _ => some [])
      (List.range (2 ^ M.addr_width 0))
  | l + 1, base =>
    collectIdx (fun idx =>
      match TableEntryType.from_pte (mem (PageTable.entry_addr base idx)) (l + 1) with
      | .Table =>
        dataFrames M mem l (Pte.pfn (mem (PageTable.entry_addr base idx)) * 4096)
      | .Leaf =>
        if Pte.pfn (mem (PageTable.entry_addr base idx)) * 4096
            % (M.leaf_page_size (l + 1)).bytes = 0 then
          some [Pte.pfn (mem (PageTable.entry_addr base idx)) * 4096]
        else none
      | .Invalidated =>
        if Pte.pfn (mem (PageTable.entry_addr base idx)) * 4096
            % (M.leaf_page_size (l + 1)).bytes = 0 then
          some [Pte.pfn (mem (PageTable.entry_addr base idx)) * 4096]
        else none
      | _ => some [])
      (List.range (2 ^ M.addr_width (l + 1)))

/-- Spec-side collector for P5: every live intermediate table frame
reachable via a `NextTable` entry in the subtree, with the same panic
conditions as the release walk. -/
def tableFrames (M : PagingMode) (mem : Mem) : Nat → Nat → Option (List Nat)
  | 0, base =>
    collectIdx (fun idx =>
      match TableEntryType.from_pte (mem (PageTable.entry_addr base idx)) 0 with
      | .Table => none
      | .Leaf =>
        if Pte.pfn (mem (PageTable.entry_addr base idx)) * 4096
            % (M.leaf_page_size 0).bytes = 0 then
          some []
        else none
      | .Invalidated =>
        if Pte.pfn (mem (PageTable.entry_addr base idx)) * 4096
            % (M.leaf_page_size 0).bytes = 0 then
          some []
        else none
      | _ => some [])
      (List.range (2 ^ M.addr_width 0))
  | l + 1, base =>
    collectIdx (fun idx =>
      match TableEntryType.from_pte (mem (PageTable.entry_addr base idx)) (l + 1) with
      | .Table =>
        match tableFrames M mem l
            (Pte.pfn (mem (PageTable.entry_addr base idx)) * 4096) with
        | some sub =>
          some (sub ++ [Pte.pfn (mem (PageTable.entry_addr base idx)) * 4096])
        | none => none
      | .Leaf =>
        if Pte.pfn (mem (PageTable.entry_addr base idx)) * 4096
            % (M.leaf_page_size (l + 1)).bytes = 0 then
          some []
        else none
      | .Invalidated =>
        if Pte.pfn (mem (PageTable.entry_addr base idx)) * 4096
            % (M.leaf_page_size (l + 1)).bytes = 0 then
          some []
        else none
      | _ => some [])
      (List.range (2 ^ M.addr_width (l + 1)))

/-- Translation of `impl Drop for PageTableInner` in `page_table.rs`:
release the whole hierarchy from the root, then each 4 KiB root page in
order. -/
def dropFrames (M : PagingMode) (mem : Mem) (rootBase rootLen : Nat) :
    Option (List Nat) :=
  match releaseTable M mem M.rootLevel rootBase with
  | some l => some (l ++ (List.range rootLen).map (fun i => rootBase + i * 4096))
  | none => none

/-- Unfolding equation of `collectIdx` for the empty index list. -/
theorem collectIdx_nil_eq (f : Nat → Option (List Nat)) : collectIdx f [] = some [] := rfl

/-- Unfolding equation of `collectIdx` for a nonempty index list. -/
theorem collectIdx_cons_eq (f : Nat → Option (List Nat)) (i : Nat) (is : List Nat) :
    collectIdx f (i :: is)
      = match f i, collectIdx f is with
        | some x, some r => some (x ++ r)
        | _, _ => none := rfl

/-- Interleaved append halves can be regrouped up to permutation. -/
theorem perm_shuffle (a b c d : List Nat) :
    ((a ++ b) ++ (c ++ d)).Perm ((a ++ c) ++ (b ++ d)) := by
  rw [List.append_assoc, List.append_assoc]
  refine List.Perm.append_left a ?_
  rw [← List.append_assoc, ← List.append_assoc]
  exact List.perm_append_comm.append_right d

/-- A table scan splits, up to permutation, into two scans that partition
each per-index contribution. -/
theorem collectIdx_perm (f g h : Nat → Option (List Nat))
    (hrel : ∀ i L, f i = some L →
      ∃ D T, g i = some D ∧ h i = some T ∧ L.Perm (D ++ T)) :
    ∀ idxs L, collectIdx f idxs = some L →
      ∃ D T, collectIdx g idxs = some D ∧ collectIdx h idxs = some T ∧
        L.Perm (D ++ T) := by
  intro idxs
  induction idxs with
  | nil =>
    intro L hL
    rw [collectIdx_nil_eq] at hL
    simp only [Option.some.injEq] at hL
    subst hL
    exact ⟨[], [], rfl, rfl, by simp⟩
  | cons i is ih =>
    intro L hL
    rw [collectIdx_cons_eq] at hL
    cases hfi : f i with
    | none =>
      rw [hfi] at hL
      exact absurd hL (by simp)
    | some x =>
      cases hri : collectIdx f is with
      | none =>
        rw [hfi, hri] at hL
        exact absurd hL (by simp)
      | some r =>
        rw [hfi, hri] at hL
        simp only [Option.some.injEq] at hL
        subst hL
        obtain ⟨Di, Ti, hgi, hhi, hpi⟩ := hrel i x hfi
        obtain ⟨Dr, Tr, hgr, hhr, hpr⟩ := ih r hri
        refine ⟨Di ++ Dr, Ti ++ Tr, ?_, ?_, ?_⟩
        · rw [collectIdx_cons_eq, hgi, hgr]
        · rw [collectIdx_cons_eq, hhi, hhr]
        · exact (hpi.append hpr).trans (perm_shuffle Di Ti Dr Tr)

/-- A scan whose every entry contributes nothing collects nothing. -/
theorem collectIdx_all_nil (f : Nat → Option (List Nat)) :
    ∀ idxs, (∀ i, i ∈ idxs → f i = some []) → collectIdx f idxs = some [] := by
  intro idxs
  induction idxs with
  | nil =>
    intro _
    rfl
  | cons i is ih =>
    intro h
    rw [collectIdx_cons_eq, h i (by simp), ih (fun j hj => h j (by simp [hj]))]
    rfl

/-- A successful scan exposes the contribution of any single index as a
contiguous slice. -/
theorem collectIdx_split (f : Nat → Option (List Nat)) :
    ∀ idxs L i, collectIdx f idxs = some L → i ∈ idxs →
      ∃ pre x post, f i = some x ∧ L = pre ++ x ++ post := by
  intro idxs
  induction idxs with
  | nil =>
    intro L i _ hmem
    exact absurd hmem (by simp)
  | cons j js ih =>
    intro L i hL hmem
    rw [collectIdx_cons_eq] at hL
    cases hfj : f j with
    | none =>
      rw [hfj] at hL
      exact absurd hL (by simp)
    | some x =>
      cases hrj : collectIdx f js with
      | none =>
        rw [hfj, hrj] at hL
        exact absurd hL (by simp)
      | some r =>
        rw [hfj, hrj] at hL
        simp only [Option.some.injEq] at hL
        subst hL
        rcases List.mem_cons.mp hmem with hij | hij
        · subst hij
          exact ⟨[], x, r, hfj, by simp⟩
        · obtain ⟨pre, y, post, hfy, hr⟩ := ih r i hrj hij
          refine ⟨x ++ pre, y, post, hfy, ?_⟩
          rw [hr]
          simp [List.append_assoc]

/-- Unfolding equation of `releaseTable` at the leaf level. -/
theorem releaseTable_zero (M : PagingMode) (mem : Mem) (base : Nat) :
    releaseTable M mem 0 base = collectIdx (fun idx =>
      match TableEntryType.from_pte (mem (PageTable.entry_addr base idx)) 0 with
      | .Table => none
      | .Leaf =>
        if Pte.pfn (mem (PageTable.entry_addr base idx)) * 4096
            % (M.leaf_page_size 0).bytes = 0 then
          some [Pte.pfn (mem (PageTable.entry_addr base idx)) * 4096]
        else none
      | .Invalidated =>
        if Pte.pfn (mem (PageTable.entry_addr base idx)) * 4096
            % (M.leaf_page_size 0).bytes = 0 then
          some [Pte.pfn (mem (PageTable.entry_addr base idx)) * 4096]
        else none
      | _ => some [])
      (List.range (2 ^ M.addr_width 0)) := rfl

/-- Unfolding equation of `releaseTable` at a non-leaf level. -/
theorem releaseTable_succ (M : PagingMode) (mem : Mem) (l base : Nat) :
    releaseTable M mem (l + 1) base = collectIdx (fun idx =>
      match TableEntryType.from_pte (mem (PageTable.entry_addr base idx)) (l + 1) with
      | .Table =>
        match releaseTable M mem l
            (Pte.pfn (mem (PageTable.entry_addr base idx)) * 4096) with
        | some sub =>
          some (sub ++ [Pte.pfn (mem (PageTable.entry_addr base idx)) * 4096])
        | none => none
      | .Leaf =>
        if Pte.pfn (mem (PageTable.entry_addr base idx)) * 4096
            % (M.leaf_page_size (l + 1)).bytes = 0 then
          some [Pte.pfn (mem (PageTable.entry_addr base idx)) * 4096]
        else none
      | .Invalidated =>
        if Pte.pfn (mem (PageTable.entry_addr base idx)) * 4096
            % (M.leaf_page_size (l + 1)).bytes = 0 then
          some [Pte.pfn (mem (PageTable.entry_addr base idx)) * 4096]
        else none
      | _ => some [])
      (List.range (2 ^ M.addr_width (l + 1))) := rfl

/-- Unfolding equation of `dataFrames` at the leaf level. -/
theorem dataFrames_zero (M : PagingMode) (mem : Mem) (base : Nat) :
    dataFrames M mem 0 base = collectIdx (fun idx =>
      match TableEntryType.from_pte (mem (PageTable.entry_addr base idx)) 0 with
      | .Table => none
      | .Leaf =>
        if Pte.pfn (mem (PageTable.entry_addr base idx)) * 4096
            % (M.leaf_page_size 0).bytes = 0 then
          some [Pte.pfn (mem (PageTable.entry_addr base idx)) * 4096]
        else none
      | .Invalidated =>
        if Pte.pfn (mem (PageTable.entry_addr base idx)) * 4096
            % (M.leaf_page_size 0).bytes = 0 then
          some [Pte.pfn (mem (PageTable.entry_addr base idx)) * 4096]
        else none
      | _ => some [])
      (List.range (2 ^ M.addr_width 0)) := rfl

/-- Unfolding equation of `dataFrames` at a non-leaf level. -/
theorem dataFrames_succ (M : PagingMode) (mem : Mem) (l base : Nat) :
    dataFrames M mem (l + 1) base = collectIdx (fun idx =>
      match TableEntryType.from_pte (mem (PageTable.entry_addr base idx)) (l + 1) with
      | .Table =>
        dataFrames M mem l (Pte.pfn (mem (PageTable.entry_addr base idx)) * 4096)
      | .Leaf =>
        if Pte.pfn (mem (PageTable.entry_addr base idx)) * 4096
            % (M.leaf_page_size (l + 1)).bytes = 0 then
          some [Pte.pfn (mem (PageTable.entry_addr base idx)) * 4096]
        else none
      | .Invalidated =>
        if Pte.pfn (mem (PageTable.entry_addr base idx)) * 4096
            % (M.leaf_page_size (l + 1)).bytes = 0 then
          some [Pte.pfn (mem (PageTable.entry_addr base idx)) * 4096]
        else none
      | _ => some [])
      (List.range (2 ^ M.addr_width (l + 1))) := rfl

/-- Unfolding equation of `tableFrames` at the leaf level. -/
theorem tableFrames_zero (M : PagingMode) (mem : Mem) (base : Nat) :
    tableFrames M mem 0 base = collectIdx (fun idx =>
      match TableEntryType.from_pte (mem (PageTable.entry_addr base idx)) 0 with
      | .Table => none
      | .Leaf =>
        if Pte.pfn (mem (PageTable.entry_addr base idx)) * 4096
            % (M.leaf_page_size 0).bytes = 0 then
          some []
        else none
      | .Invalidated =>
        if Pte.pfn (mem (PageTable.entry_addr base idx)) * 4096
            % (M.leaf_page_size 0).bytes = 0 then
          some []
        else none
      | _ => some [])
      (List.range (2 ^ M.addr_width 0)) := rfl

/-- Unfolding equation of `tableFrames` at a non-leaf level. -/
theorem tableFrames_succ (M : PagingMode) (mem : Mem) (l base : Nat) :
    tableFrames M mem (l + 1) base = collectIdx (fun idx =>
      match TableEntryType.from_pte (mem (PageTable.entry_addr base idx)) (l + 1) with
      | .Table =>
        match tableFrames M mem l
            (Pte.pfn (mem (PageTable.entry_addr base idx)) * 4096) with
        | some sub =>
          some (sub ++ [Pte.pfn (mem (PageTable.entry_addr base idx)) * 4096])
        | none => none
      | .Leaf =>
        if Pte.pfn (mem (PageTable.entry_addr base idx)) * 4096
            % (M.leaf_page_size (l + 1)).bytes = 0 then
          some []
        else none
      | .Invalidated =>
        if Pte.pfn (mem (PageTable.entry_addr base idx)) * 4096
            % (M.leaf_page_size (l + 1)).bytes = 0 then
          some []
        else none
      | _ => some [])
      (List.range (2 ^ M.addr_width (l + 1))) := rfl

/-- A successful release of a subtree emits, up to order, exactly the Leaf
and Invalidated frames of the subtree together with its live intermediate
table frames. -/
theorem releaseTable_perm (M : PagingMode) (mem : Mem) :
    ∀ lvl base L, releaseTable M mem lvl base = some L →
      ∃ D T, dataFrames M mem lvl base = some D ∧ tableFrames M mem lvl base = some T ∧
        L.Perm (D ++ T) := by
  intro lvl
  induction lvl with
  | zero =>
    intro base L hL
    rw [releaseTable_zero] at hL
    rw [dataFrames_zero, tableFrames_zero]
    refine collectIdx_perm _ _ _ ?_ _ L hL
    intro i Li hLi
    cases hcls : TableEntryType.from_pte (mem (PageTable.entry_addr base i)) 0 with
    | Table =>
      rw [hcls] at hLi
      exact absurd hLi (by simp)
    | Leaf =>
      rw [hcls] at hLi
      dsimp only at hLi
      split_ifs at hLi with ha
      simp only [Option.some.injEq] at hLi
      subst hLi
      refine ⟨[Pte.pfn (mem (PageTable.entry_addr base i)) * 4096], [], ?_, ?_, by simp⟩
      · rw [if_pos ha]
      · rw [if_pos ha]
    | Invalidated =>
      rw [hcls] at hLi
      dsimp only at hLi
      split_ifs at hLi with ha
      simp only [Option.some.injEq] at hLi
      subst hLi
      refine ⟨[Pte.pfn (mem (PageTable.entry_addr base i)) * 4096], [], ?_, ?_, by simp⟩
      · rw [if_pos ha]
      · rw [if_pos ha]
    | Unused =>
      rw [hcls] at hLi
      simp only [Option.some.injEq] at hLi
      subst hLi
      refine ⟨[], [], ?_, ?_, by simp⟩
      · rfl
      · rfl
    | Locked =>
      rw [hcls] at hLi
      simp only [Option.some.injEq] at hLi
      subst hLi
      refine ⟨[], [], ?_, ?_, by simp⟩
      · rfl
      · rfl
  | succ l ih =>
    intro base L hL
    rw [releaseTable_succ] at hL
    rw [dataFrames_succ, tableFrames_succ]
    refine collectIdx_perm _ _ _ ?_ _ L hL
    intro i Li hLi
    cases hcls : TableEntryType.from_pte (mem (PageTable.entry_addr base i)) (l + 1) with
    | Table =>
      rw [hcls] at hLi
      dsimp only at hLi
      cases hsub : releaseTable M mem l
          (Pte.pfn (mem (PageTable.entry_addr base i)) * 4096) with
      | none =>
        rw [hsub] at hLi
        exact absurd hLi (by simp)
      | some sub =>
        rw [hsub] at hLi
        simp only [Option.some.injEq] at hLi
        subst hLi
        obtain ⟨D, T, hD, hT, hp⟩ := ih _ sub hsub
        refine ⟨D, T ++ [Pte.pfn (mem (PageTable.entry_addr base i)) * 4096], ?_, ?_, ?_⟩
        · exact hD
        · rw [hT]
        · have h1 := hp.append_right [Pte.pfn (mem (PageTable.entry_addr base i)) * 4096]
          rw [List.append_assoc] at h1
          exact h1
    | Leaf =>
      rw [hcls] at hLi
      dsimp only at hLi
      split_ifs at hLi with ha
      simp only [Option.some.injEq] at hLi
      subst hLi
      refine ⟨[Pte.pfn (mem (PageTable.entry_addr base i)) * 4096], [], ?_, ?_, by simp⟩
      · rw [if_pos ha]
      · rw [if_pos ha]
    | Invalidated =>
      rw [hcls] at hLi
      dsimp only at hLi
      split_ifs at hLi with ha
      simp only [Option.some.injEq] at hLi
      subst hLi
      refine ⟨[Pte.pfn (mem (PageTable.entry_addr base i)) * 4096], [], ?_, ?_, by simp⟩
      · rw [if_pos ha]
      · rw [if_pos ha]
    | Unused =>
      rw [hcls] at hLi
      simp only [Option.some.injEq] at hLi
      subst hLi
      refine ⟨[], [], ?_, ?_, by simp⟩
      · rfl
      · rfl
    | Locked =>
      rw [hcls] at hLi
      simp only [Option.some.injEq] at hLi
      subst hLi
      refine ⟨[], [], ?_, ?_, by simp⟩
      · rfl
      · rfl

/-- C1: dropping a hierarchy releases, each exactly once when the owned
frames are distinct, exactly the frames it logically owns — each root page,
every intermediate table page reachable via a `NextTable` entry (released
after recursing into it, as the slice decomposition shows), the mapped frame
of every `Leaf` entry and the remembered frame of every `Invalidated` entry
— and entries classified `Unused` or `Locked` cause no release. -/
theorem C1_drop_release_discipline (M : PagingMode) (mem : Mem)
    (rootBase rootLen : Nat) (L : List Nat)
    (hdrop : dropFrames M mem rootBase rootLen = some L) :
    (∃ D T, dataFrames M mem M.rootLevel rootBase = some D ∧
      tableFrames M mem M.rootLevel rootBase = some T ∧
      L.Perm (D ++ T ++ (List.range rootLen).map (fun i => rootBase + i * 4096)) ∧
      ((D ++ T ++ (List.range rootLen).map (fun i => rootBase + i * 4096)).Nodup →
        ∀ fr, L.count fr
          = if fr ∈ D ++ T ++ (List.range rootLen).map (fun i => rootBase + i * 4096)
            then 1 else 0)) ∧
    (∀ lvl base, (∀ idx, idx < 2 ^ M.addr_width lvl →
        TableEntryType.from_pte (mem (PageTable.entry_addr base idx)) 0 = .Unused ∨
        TableEntryType.from_pte (mem (PageTable.entry_addr base idx)) 0 = .Locked) →
      releaseTable M mem lvl base = some []) ∧
    (∀ l base idx L', releaseTable M mem (l + 1) base = some L' →
      idx < 2 ^ M.addr_width (l + 1) →
      TableEntryType.from_pte (mem (PageTable.entry_addr base idx)) 0 = .Table →
      ∃ pre sub post,
        releaseTable M mem l (Pte.pfn (mem (PageTable.entry_addr base idx)) * 4096)
          = some sub ∧
        L' = pre ++ (sub ++ [Pte.pfn (mem (PageTable.entry_addr base idx)) * 4096])
          ++ post) := by
  refine ⟨?_, ?_, ?_⟩
  · unfold dropFrames at hdrop
    cases hrel : releaseTable M mem M.rootLevel rootBase with
    | none =>
      rw [hrel] at hdrop
      exact absurd hdrop (by simp)
    | some l =>
      rw [hrel] at hdrop
      simp only [Option.some.injEq] at hdrop
      subst hdrop
      obtain ⟨D, T, hD, hT, hp⟩ := releaseTable_perm M mem M.rootLevel rootBase l hrel
      refine ⟨D, T, hD, hT, ?_, ?_⟩
      · exact hp.append_right ((List.range rootLen).map (fun i => rootBase + i * 4096))
      · intro hnodup fr
        have hcnt := (hp.append_right ((List.range rootLen).map
          (fun i => rootBase + i * 4096))).count_eq fr
        rw [hcnt]
        by_cases hmem : fr ∈ D ++ T
            ++ (List.range rootLen).map (fun i => rootBase + i * 4096)
        · rw [if_pos hmem]
          exact List.count_eq_one_of_mem hnodup hmem
        · rw [if_neg hmem]
          exact List.count_eq_zero_of_not_mem hmem
  · intro lvl base h
    cases lvl with
    | zero =>
      rw [releaseTable_zero]
      apply collectIdx_all_nil
      intro i hi
      rcases h i (List.mem_range.mp hi) with hcl | hcl
      · simp only [hcl]
      · simp only [hcl]
    | succ l =>
      rw [releaseTable_succ]
      apply collectIdx_all_nil
      intro i hi
      rcases h i (List.mem_range.mp hi) with hcl | hcl
      · have hcl' : TableEntryType.from_pte (mem (PageTable.entry_addr base i)) (l + 1)
            = .Unused := hcl
        simp only [hcl']
      · have hcl' : TableEntryType.from_pte (mem (PageTable.entry_addr base i)) (l + 1)
            = .Locked := hcl
        simp only [hcl']
  · intro l base idx L' hL' hidx htab
    rw [releaseTable_succ] at hL'
    obtain ⟨pre, x, post, hfx, hsplit⟩ :=
      collectIdx_split _ _ L' idx hL' (List.mem_range.mpr hidx)
    have htab' : TableEntryType.from_pte (mem (PageTable.entry_addr base idx)) (l + 1)
        = .Table := htab
    simp only [htab'] at hfx
    cases hsub : releaseTable M mem l
        (Pte.pfn (mem (PageTable.entry_addr base idx)) * 4096) with
    | none =>
      rw [hsub] at hfx
      exact absurd hfx (by simp)
    | some sub =>
      rw [hsub] at hfx
      simp only [Option.some.injEq] at hfx
      subst hfx
      exact ⟨pre, sub, post, rfl, hsplit⟩

/-- A two-level, two-entries-per-table paging mode for a small release
example. -/
def c1Mode : PagingMode where
  numLevels := 2
  addr_shift := fun lvl => if lvl = 0 then 12 else 13
  addr_width := fun _ => 1
  leaf_page_size := fun lvl => if lvl = 0 then .Size4k else .Size2M
  root_table_pages := 1
  top_level_align := 4096

/-- A concrete two-level hierarchy: the root at 0x80000000 has a `NextTable`
entry to 0x81000000 and an `Invalidated` entry remembering frame
0x90000000; the child table maps frame 0x92000000 in a `Leaf` entry and
leaves its second entry `Unused`. -/
def c1Mem : Mem := fun s =>
  if s = 0x80000000 then Pte.set 0x81000 PteFieldBits.non_leaf
  else if s = 0x80000008 then Pte.set 0x90000 0
  else if s = 0x81000000 then
    Pte.set 0x92000 (PteFieldBits.leaf_with_perms .RWX ||| PteFieldBit.User)
  else 0

/-- C1 witness: dropping the concrete hierarchy releases the leaf frame,
then the child table frame, then the invalidated frame, then the root page,
and each released frame is counted exactly once. -/
theorem C1_drop_release_discipline_witness :
    dropFrames c1Mode c1Mem 0x80000000 1
      = some [0x92000000, 0x81000000, 0x90000000, 0x80000000] ∧
    List.count 0x81000000 [0x92000000, 0x81000000, 0x90000000, 0x80000000] = 1 ∧
    List.count 0x70000000 [0x92000000, 0x81000000, 0x90000000, 0x80000000] = 0 := by
  obtain ⟨⟨D, T, hD, hT, hperm, hcount⟩, hskip, horder⟩ :=
    C1_drop_release_discipline c1Mode c1Mem 0x80000000 1
      [0x92000000, 0x81000000, 0x90000000, 0x80000000] rfl
  have hDval : D = [0x92000000, 0x90000000] := by
    have h2 : (some [0x92000000, 0x90000000] : Option (List Nat)) = some D := by
      rw [← hD]
      rfl
    simp only [Option.some.injEq] at h2
    exact h2.symm
  have hTval : T = [0x81000000] := by
    have h2 : (some [0x81000000] : Option (List Nat)) = some T := by
      rw [← hT]
      rfl
    simp only [Option.some.injEq] at h2
    exact h2.symm
  subst hDval
  subst hTval
  have hnodup : (([0x92000000, 0x90000000] : List Nat) ++ [0x81000000]
      ++ (List.range 1).map (fun i => 0x80000000 + i * 4096)).Nodup := by
    decide
  refine ⟨rfl, ?_, ?_⟩
  · have := hcount hnodup 0x81000000
    rw [this]
    decide
  · have := hcount hnodup 0x70000000
    rw [this]
    decide

end Salus
